import Mathlib

/-
Verification of the incremental compilation graph in `loader/loader.go`
(package cache, dependency / reverse-dependency bookkeeping, dirty-marking
cascade, and the import-resolver callback).

External collaborators (go/build `Build.Import`, `buildutil.ParseFile`,
`types.Config.Check`, `ssa.Program.CreatePackage` / `RemovePackage`) are
modelled by a `World` of oracles plus an event trace; machine pointers
(`*types.Package`, `*ssa.Package`) are modelled by `Nat` handles drawn from
counters.  Go maps are modelled by association lists (`alookup` / `ainsert` /
`aerase`) and Go's set-typed maps by duplicate-free lists (`sinsert`).  The
uninitialized `*types.Package` of a fresh `Package` shell is `none`, so the
key type of the handle index is `Option Nat` exactly as the Go map is keyed
by a possibly-nil pointer.  The unbounded mutual recursion between
`compile` and `ImportFrom` (the code has no cycle detection) is made total
with a fuel parameter; `Outcome.diverge` marks fuel exhaustion and is never
identified with a Go error return.  Reverse-dependency sets are modelled by
value; the Go code shares the map object between the old cache entry and the
replacing shell, which is observationally equal for runs that do not compile
a package while it participates in an import cycle broken by a stale clean
cache entry.
-/

set_option autoImplicit false

namespace Loader

/-! ### Association-list maps (Go `map`s) -/

def alookup {κ β : Type} [DecidableEq κ] (m : List (κ × β)) (k : κ) : Option β :=
  match m with
  | [] => none
  | (k', v') :: t => if k' = k then some v' else alookup t k

def ainsert {κ β : Type} [DecidableEq κ] (m : List (κ × β)) (k : κ) (v : β) :
    List (κ × β) :=
  match m with
  | [] => [(k, v)]
  | (k', v') :: t => if k' = k then (k, v) :: t else (k', v') :: ainsert t k v

def aerase {κ β : Type} [DecidableEq κ] (m : List (κ × β)) (k : κ) : List (κ × β) :=
  match m with
  | [] => []
  | (k', v') :: t => if k' = k then aerase t k else (k', v') :: aerase t k

/-- Insertion into a Go `map[string]struct{}` used as a set. -/
def sinsert (x : String) (l : List String) : List String :=
  if x ∈ l then l else x :: l

/-! ### Data model -/

/-- The package descriptor returned by `go/build`'s `Build.Import`
(directory, file lists, import list, canonical import path). -/
structure Desc where
  importPath : String
  dir : String
  goFiles : List String
  cgoFiles : List String
  imports : List String
deriving DecidableEq, Repr

/-- `loader.Package`: the embedded `*types.Package` is a `Nat` handle
(`none` while the shell is uninitialized), `SSA` is a handle into the shared
IR program, and the two edge sets are import-path sets. -/
structure Package where
  typesPkg : Option Nat
  Files : List String
  SSA : Option Nat
  Dependencies : List String
  ReverseDependencies : List String
  Explicit : Bool
  dirty : Bool
deriving DecidableEq, Repr

/-- `Program.newPackage`: a fresh shell with empty maps. -/
def newPackage : Package :=
  { typesPkg := none, Files := [], SSA := none, Dependencies := [],
    ReverseDependencies := [], Explicit := false, dirty := false }

/-- The handle of `types.Unsafe`, the builtin sentinel semantic type. -/
def builtinHandle : Nat := 0

/-- Events recording every access to an external collaborator. -/
inductive Ev where
  | locate (path srcDir : String)
  | parseFile (dir file : String)
  | check (path : String)
  | buildIR (path : String)
deriving DecidableEq, Repr

/-- The mutable state of `loader.Program`: the package cache, the handle
index `TypePackages`, the set of IR packages registered with the shared
`ssa.Program`, the accumulated type-error list (paths whose analysis
failed), two handle allocators, and the event trace. -/
structure Program where
  Packages : List (String × Package)
  TypePackages : List (Option Nat × String)
  SSA : List Nat
  Errors : List String
  nextHandle : Nat
  nextSSA : Nat
  trace : List Ev
deriving DecidableEq, Repr

/-- The state of a freshly constructed `Program` (`NewProgram`); handle `0`
is reserved for `types.Unsafe`. -/
def initProgram : Program :=
  { Packages := [], TypePackages := [], SSA := [], Errors := [],
    nextHandle := 1, nextSSA := 0, trace := [] }

/-- The external collaborators: the locator (`Build.Import`), the parser
verdict per (directory, file), and the semantic-analyzer verdict per
descriptor. -/
structure World where
  locate : String → String → Option Desc
  parseOk : String → String → Bool
  checkOk : Desc → Bool

/-- Error kinds surfaced by the loader. -/
inductive CErr where
  | locateErr
  | cgoErr
  | parseErr
  | typeErr
  | nilDeref
deriving DecidableEq, Repr

/-- Result of a loader operation: a Go return value plus the mutated state,
a Go error plus the mutated state, or fuel exhaustion (`diverge`), which
models the unbounded recursion the code itself cannot escape. -/
inductive Outcome (α : Type) where
  | ok : α → Program → Outcome α
  | err : CErr → Program → Outcome α
  | diverge : Outcome α
deriving DecidableEq, Repr

def logEv (st : Program) (e : Ev) : Program :=
  { st with trace := st.trace ++ [e] }

/-- The fresh shell `compile` starts from: `newPackage` with
`ReverseDependencies` and `Explicit` carried forward from a prior cached
entry when one exists. -/
def shellFor (st : Program) (path : String) : Package :=
  match alookup st.Packages path with
  | some old =>
    { newPackage with
      ReverseDependencies := old.ReverseDependencies,
      Explicit := old.Explicit }
  | none => newPackage

/-! ### `Program.markDirty`

`markDirty` sets `dirty = true`, unregisters the package's IR from the
shared IR program when one exists, and recurses into every cached reverse
dependency.  The Go source has no guard on an already-dirty package, so the
recursion is bounded only by fuel. -/

mutual

def markDirty : Nat → Program → String → Outcome Unit
  | 0, _, _ => .diverge
  | fuel + 1, st, p =>
    match alookup st.Packages p with
    | none => .ok () st
    | some pkg =>
      let st := { st with
        Packages := ainsert st.Packages p { pkg with dirty := true },
        SSA := match pkg.SSA with
          | some s => st.SSA.filter (fun x => x ≠ s)
          | none => st.SSA }
      markDirtyFold fuel st pkg.ReverseDependencies

/-- The loop body of `markDirty`: each reverse dependency is looked up in
the current cache and skipped when absent (it may be mid-compile). -/
def markDirtyFold : Nat → Program → List String → Outcome Unit
  | _, st, [] => .ok () st
  | 0, _, _ :: _ => .diverge
  | fuel + 1, st, r :: rs =>
    match alookup st.Packages r with
    | none => markDirtyFold fuel st rs
    | some _ =>
      match markDirty fuel st r with
      | .ok _ st' => markDirtyFold fuel st' rs
      | .err e st' => .err e st'
      | .diverge => .diverge

end

/-! ### Parsing and edge registration -/

/-- The parse loop of `compile`: each listed Go file is read and parsed
(one `parseFile` event per file); a parse failure aborts the package. -/
def parseFold (w : World) : Program → String → List String → List String →
    Outcome (List String)
  | st, _, acc, [] => .ok acc st
  | st, dir, acc, f :: fs =>
    let st := logEv st (.parseFile dir f)
    if w.parseOk dir f then parseFold w st dir (acc ++ [f]) fs
    else .err .parseErr st

/-- The edge-registration walk at the end of `compile`: re-resolve each
import, add it to the new package's `Dependencies`, and add this package to
the dependency's `ReverseDependencies`.  The Go code writes through a
possibly-nil `dep` pointer; a missing cache entry is a nil-map panic,
modelled as `CErr.nilDeref`. -/
def walkImports (w : World) : Program → Package → String → String → List String →
    Outcome Package
  | st, pkg, _, _, [] => .ok pkg st
  | st, pkg, me, dir, imp :: rest =>
    let st := logEv st (.locate imp dir)
    match w.locate imp dir with
    | none => .err .locateErr st
    | some bdep =>
      match alookup st.Packages bdep.importPath with
      | none => .err .nilDeref st
      | some dep =>
        let pkg := { pkg with Dependencies := sinsert bdep.importPath pkg.Dependencies }
        let dep' := { dep with ReverseDependencies := sinsert me dep.ReverseDependencies }
        let st := { st with Packages := ainsert st.Packages bdep.importPath dep' }
        walkImports w st pkg me dir rest

/-! ### `compile`, `ImportFrom`, and the analyzer's import resolution

`compile` and `ImportFrom` are mutually recursive through the semantic
analyzer: `checker.Check` calls the resolver (`ImportFrom`) once per import
of the package under analysis (`resolveImports`), and the resolver compiles
cache misses.  The code has no cycle detection (its own FIXME), so the
recursion is bounded by fuel. -/

mutual

/-- `Program.ImportFrom`: resolve the path via the locator; a cached,
non-dirty package for the canonical path is returned immediately; otherwise
compile it and store the result in `Packages` and `TypePackages`. -/
def ImportFrom (w : World) : Nat → Program → String → String → Outcome (Option Nat)
  | 0, _, _, _ => .diverge
  | fuel + 1, st, path, srcDir =>
    let st := logEv st (.locate path srcDir)
    match w.locate path srcDir with
    | none => .err .locateErr st
    | some bpkg =>
      match alookup st.Packages bpkg.importPath with
      | some pkg =>
        if pkg.dirty then importSlow w fuel st path srcDir bpkg.importPath
        else .ok pkg.typesPkg st
      | none => importSlow w fuel st path srcDir bpkg.importPath

/-- The slow path of `ImportFrom`: compile, then publish under the
canonical import path and index the new semantic handle. -/
def importSlow (w : World) : Nat → Program → String → String → String →
    Outcome (Option Nat)
  | 0, _, _, _, _ => .diverge
  | fuel + 1, st, path, srcDir, canon =>
    match compile w fuel st path srcDir with
    | .ok pkg st =>
      let st := { st with
        Packages := ainsert st.Packages canon pkg,
        TypePackages := ainsert st.TypePackages pkg.typesPkg canon }
      .ok pkg.typesPkg st
    | .err e st => .err e st
    | .diverge => .diverge

/-- The import-resolution part of `checker.Check`: the analyzer calls the
resolver once per import of the descriptor, in order, and fails on the
first resolver failure. -/
def resolveImports (w : World) : Nat → Program → List String → String → Outcome Unit
  | _, st, [], _ => .ok () st
  | 0, _, _ :: _, _ => .diverge
  | fuel + 1, st, imp :: rest, dir =>
    match ImportFrom w fuel st imp dir with
    | .ok _ st => resolveImports w fuel st rest dir
    | .err e st => .err e st
    | .diverge => .diverge

/-- `Program.compile`: allocate a fresh shell; carry `ReverseDependencies`
and `Explicit` forward from a prior cached entry; delete the (still nil)
handle of the fresh shell from `TypePackages`; short-circuit the builtin
sentinel; mark the shell and, through its inherited reverse dependencies,
the stale dependents dirty; locate, reject cgo, parse, analyze (resolving
imports through `ImportFrom`), build the IR, register dependency edges, and
clear `dirty`. -/
def compile (w : World) : Nat → Program → String → String → Outcome Package
  | 0, _, _, _ => .diverge
  | fuel + 1, st, path, srcdir =>
    let pkg0 := shellFor st path
    let st := { st with TypePackages := aerase st.TypePackages pkg0.typesPkg }
    if path = "unsafe" then
      .ok { pkg0 with typesPkg := some builtinHandle, dirty := false } st
    else
      let pkg0 := { pkg0 with dirty := true }
      match markDirtyFold fuel st pkg0.ReverseDependencies with
      | .err e st => .err e st
      | .diverge => .diverge
      | .ok _ st =>
        let st := logEv st (.locate path srcdir)
        match w.locate path srcdir with
        | none => .err .locateErr st
        | some bld =>
          if bld.cgoFiles = [] then
            match parseFold w st bld.dir [] bld.goFiles with
            | .err e st => .err e st
            | .diverge => .diverge
            | .ok fileNames st =>
              let st := logEv st (.check path)
              match resolveImports w fuel st bld.imports bld.dir with
              | .err _ st =>
                let st := { st with Errors := st.Errors ++ [path] }
                .err .typeErr st
              | .diverge => .diverge
              | .ok _ st =>
                if w.checkOk bld then
                  let pkg := { pkg0 with Files := fileNames,
                                         typesPkg := some st.nextHandle }
                  let st := { st with nextHandle := st.nextHandle + 1 }
                  let pkg := { pkg with SSA := some st.nextSSA }
                  let st := { st with SSA := st.SSA ++ [st.nextSSA],
                                      nextSSA := st.nextSSA + 1,
                                      trace := st.trace ++ [.buildIR path] }
                  match walkImports w st pkg bld.importPath bld.dir bld.imports with
                  | .err e st => .err e st
                  | .diverge => .diverge
                  | .ok pkg st => .ok { pkg with dirty := false } st
                else
                  let st := { st with Errors := st.Errors ++ [path] }
                  .err .typeErr st
          else .err .cgoErr st

end

/-- `Program.Compile`: reset the error list, compile, surface the
accumulated type-error batch when non-empty, otherwise mark the result
explicit and publish it under the requested path. -/
def Compile (w : World) (fuel : Nat) (st : Program) (path : String) : Outcome Package :=
  let st := { st with Errors := [] }
  match compile w fuel st path "." with
  | .diverge => .diverge
  | .err e st => if st.Errors = [] then .err e st else .err .typeErr st
  | .ok pkg st =>
    if st.Errors = [] then
      let pkg := { pkg with Explicit := true }
      let st := { st with
        Packages := ainsert st.Packages path pkg,
        TypePackages := ainsert st.TypePackages pkg.typesPkg path }
      .ok pkg st
    else .err .typeErr st

/-- The loop of `RecompileDirtyPackages` over the key set of the cache: a
package still dirty at the moment it is visited is recompiled, and the
compiled result is discarded (`_, err := a.compile(path, ".")`). -/
def recompileLoop (w : World) (fuel : Nat) : List String → Program → Outcome Unit
  | [], st => .ok () st
  | p :: ps, st =>
    match alookup st.Packages p with
    | none => recompileLoop w fuel ps st
    | some pkg =>
      if pkg.dirty then
        match compile w fuel st p "." with
        | .ok _ st => recompileLoop w fuel ps st
        | .err e st => .err e st
        | .diverge => .diverge
      else recompileLoop w fuel ps st

/-- `Program.RecompileDirtyPackages`. -/
def RecompileDirtyPackages (w : World) (fuel : Nat) (st : Program) : Outcome Unit :=
  recompileLoop w fuel (st.Packages.map Prod.fst) st

/-! ### Observation helpers and specification predicates -/

/-- The returned value of a successful outcome. -/
def okValue {α : Type} : Outcome α → Option α
  | .ok a _ => some a
  | _ => none

/-- The state of a successful outcome. -/
def okProgram {α : Type} : Outcome α → Option Program
  | .ok _ st => some st
  | _ => none

/-- The dirty flag of a cached package in the state of a successful
outcome. -/
def dirtyAfter (o : Outcome Unit) (p : String) : Option Bool :=
  match o with
  | .ok _ st => (alookup st.Packages p).map Package.dirty
  | _ => none

/-- The state with the dirty flag of one cached package forced on (used to
express that `markDirty` ignores the prior value of the flag). -/
def dirtied (st : Program) (p : String) : Program :=
  match alookup st.Packages p with
  | some pk => { st with Packages := ainsert st.Packages p { pk with dirty := true } }
  | none => st

/-- Locator sanity (go/build behaviour): only the builtin sentinel path
resolves to the canonical import path of the builtin sentinel. -/
def Sane (w : World) : Prop :=
  ∀ p d desc, w.locate p d = some desc → desc.importPath = "unsafe" → p = "unsafe"

/-- No package of the world imports anything whose canonical import path is
`k` (in particular `k` is not part of an import cycle; this is the status of
a root path requested by a caller). -/
def NoImportOf (w : World) (k : String) : Prop :=
  ∀ p d desc, w.locate p d = some desc → ∀ imp, imp ∈ desc.imports →
    ∀ d' desc', w.locate imp d' = some desc' → desc'.importPath ≠ k

/-- Evolution of the cache at a single key: the entry is untouched, or the
previously cached entry merely had its dirty flag raised. -/
def KeyEvol (k : String) (st st' : Program) : Prop :=
  alookup st'.Packages k = alookup st.Packages k ∨
  ∃ pk, alookup st.Packages k = some pk ∧
    alookup st'.Packages k = some { pk with dirty := true }

/-- The cache states reachable through the exported API (`Compile`,
`RecompileDirtyPackages`, and the importer callback `ImportFrom`) from a
fresh `Program`. -/
inductive Reaches (w : World) : Program → Prop where
  | init : Reaches w initProgram
  | top_ok {st f p pkg st'} : Reaches w st →
      Compile w f st p = .ok pkg st' → Reaches w st'
  | top_err {st f p e st'} : Reaches w st →
      Compile w f st p = .err e st' → Reaches w st'
  | rec_ok {st f st'} : Reaches w st →
      RecompileDirtyPackages w f st = .ok () st' → Reaches w st'
  | rec_err {st f e st'} : Reaches w st →
      RecompileDirtyPackages w f st = .err e st' → Reaches w st'
  | imp_ok {st f p d h st'} : Reaches w st →
      ImportFrom w f st p d = .ok h st' → Reaches w st'
  | imp_err {st f p d e st'} : Reaches w st →
      ImportFrom w f st p d = .err e st' → Reaches w st'

/-- The invariant behind the sentinel claims: a cached entry under the
sentinel path is never dirty, the sentinel path is in nobody's reverse
dependencies, and the nil handle is never in the handle index. -/
def Inv (st : Program) : Prop :=
  (∀ u, alookup st.Packages "unsafe" = some u → u.dirty = false) ∧
  (∀ p pk, alookup st.Packages p = some pk → "unsafe" ∉ pk.ReverseDependencies) ∧
  alookup st.TypePackages none = none

/-- The dependency set the edge-registration walk accumulates: the
canonical import path of each import, deduplicated, `none` when some import
fails to locate. -/
def canonDeps (w : World) (dir : String) : List String → List String → Option (List String)
  | acc, [] => some acc
  | acc, imp :: rest =>
    match w.locate imp dir with
    | none => none
    | some b => canonDeps w dir (sinsert b.importPath acc) rest

/-! ### Concrete fixtures for witnesses and counterexamples -/

/-- A world in which no import path locates at all. -/
def wNull : World :=
  { locate := fun _ _ => none, parseOk := fun _ _ => true, checkOk := fun _ => true }

/-- A two-package world: `app` (in directory `dapp`) imports `lib`. -/
def wAppLib : World :=
  { locate := fun p _ =>
      if p = "app" then some ⟨"app", "dapp", ["a.go"], [], ["lib"]⟩
      else if p = "lib" then some ⟨"lib", "dlib", ["l.go"], [], []⟩
      else none,
    parseOk := fun _ _ => true,
    checkOk := fun _ => true }

/-- A one-package world for `A`. -/
def wOne : World :=
  { locate := fun p _ => if p = "A" then some ⟨"A", "dA", ["a.go"], [], []⟩ else none,
    parseOk := fun _ _ => true,
    checkOk := fun _ => true }

/-- Cache in which `A` is already dirty and `B`, a clean reverse dependent
of `A`, is cached. -/
def stGuard : Program :=
  { initProgram with Packages :=
      [("A", { newPackage with dirty := true, ReverseDependencies := ["B"] }),
       ("B", newPackage)] }

/-- Cache whose reverse-dependency edges form a two-cycle. -/
def stCyc : Program :=
  { initProgram with Packages :=
      [("A", { newPackage with ReverseDependencies := ["B"] }),
       ("B", { newPackage with ReverseDependencies := ["A"] })] }

/-- Cache with a single dirty package `A` that has no dependencies. -/
def stOne : Program :=
  { initProgram with
      Packages := [("A", { newPackage with typesPkg := some 1, dirty := true })],
      TypePackages := [(some 1, "A")],
      nextHandle := 2 }

/-- Cache with a clean `lib` entry for the resolver fast path. -/
def stLib : Program :=
  { initProgram with
      Packages := [("lib", { newPackage with typesPkg := some 1 })],
      TypePackages := [(some 1, "lib")],
      nextHandle := 2 }

/-- Cache with one entry whose IR is registered with the shared IR
program. -/
def stSSA : Program :=
  { initProgram with
      Packages := [("A", { newPackage with typesPkg := some 1, SSA := some 3 })],
      TypePackages := [(some 1, "A")],
      SSA := [3],
      nextHandle := 2,
      nextSSA := 4 }

/-- Cache with a prior entry for `app` carrying reverse dependencies and
the explicit flag, ready to be recompiled against `wAppLib`. -/
def stOld : Program :=
  { initProgram with
      Packages := [("app",
        { typesPkg := some 1, Files := ["old.go"], SSA := some 0,
          Dependencies := ["oldDep"], ReverseDependencies := ["gone"],
          Explicit := true, dirty := true })],
      TypePackages := [(some 1, "app")],
      SSA := [0],
      nextHandle := 2,
      nextSSA := 1 }

/-- The package produced by recompiling `app` from `stOld` in `wAppLib`. -/
def c7pkg : Package := (okValue (compile wAppLib 10 stOld "app" ".")).getD newPackage

/-- The state produced by recompiling `app` from `stOld` in `wAppLib`. -/
def c7st : Program := (okProgram (compile wAppLib 10 stOld "app" ".")).getD initProgram

/-- The package produced by compiling `app` from the fresh state in
`wAppLib`. -/
def c4pkg : Package := (okValue (compile wAppLib 10 initProgram "app" ".")).getD newPackage

/-- The state produced by compiling `app` from the fresh state in
`wAppLib`. -/
def c4st : Program := (okProgram (compile wAppLib 10 initProgram "app" ".")).getD initProgram

/-- The state produced by resolving the import list `["lib"]` from the
fresh state in `wAppLib`. -/
def c10st : Program :=
  (okProgram (resolveImports wAppLib 9 initProgram ["lib"] "dapp")).getD initProgram

/-- The two-cycle cache with adjustable dirty flags. -/
def stCycF (a b : Bool) : Program :=
  { initProgram with Packages :=
      [("A", { newPackage with dirty := a, ReverseDependencies := ["B"] }),
       ("B", { newPackage with dirty := b, ReverseDependencies := ["A"] })] }

/-- The monotone state facts every loader operation preserves on both
normal and error returns: handle counters never decrease and cache keys are
never deleted. -/
def StEvol (st st' : Program) : Prop :=
  st.nextHandle ≤ st'.nextHandle ∧ st.nextSSA ≤ st'.nextSSA ∧
  (∀ q, (alookup st.Packages q).isSome → (alookup st'.Packages q).isSome)

/-- `StEvol` read off an operation's outcome (trivial on fuel
exhaustion). -/
def resStEvol {α : Type} (st : Program) : Outcome α → Prop
  | .ok _ st' => StEvol st st'
  | .err _ st' => StEvol st st'
  | .diverge => True

/-- `KeyEvol` read off an operation's outcome (trivial on fuel
exhaustion). -/
def resKeyEvol {α : Type} (k : String) (st : Program) : Outcome α → Prop
  | .ok _ st' => KeyEvol k st st'
  | .err _ st' => KeyEvol k st st'
  | .diverge => True

/-- The state of a failed outcome. -/
def errProgram {α : Type} : Outcome α → Option Program
  | .err _ st => some st
  | _ => none

/-- A world in which `app` imports the unresolvable path `missing`. -/
def wMissing : World :=
  { locate := fun p _ =>
      if p = "app" then some ⟨"app", "dapp", ["a.go"], [], ["missing"]⟩ else none,
    parseOk := fun _ _ => true,
    checkOk := fun _ => true }

/-- The state left behind by the failing `Compile "app"` in `wMissing`. -/
def c6st : Program :=
  (errProgram (Compile wMissing 10 initProgram "app")).getD initProgram

/-! ### Map lemmas -/

theorem alookup_ainsert_self {κ β : Type} [DecidableEq κ] (m : List (κ × β)) (k : κ) (v : β) :
    alookup (ainsert m k v) k = some v := by
  induction m with
  | nil => simp [ainsert, alookup]
  | cons h t ih =>
    obtain ⟨k', v'⟩ := h
    by_cases hk : k' = k
    · subst hk; simp [ainsert, alookup]
    · simp [ainsert, alookup, hk, ih]

theorem alookup_ainsert_ne {κ β : Type} [DecidableEq κ] (m : List (κ × β)) (k q : κ) (v : β)
    (h : q ≠ k) : alookup (ainsert m k v) q = alookup m q := by
  induction m with
  | nil => simp [ainsert, alookup, Ne.symm h]
  | cons hd t ih =>
    obtain ⟨k', v'⟩ := hd
    by_cases hk : k' = k
    · subst hk; simp [ainsert, alookup, Ne.symm h]
    · simp only [ainsert, if_neg hk, alookup]
      by_cases hq : k' = q
      · rw [if_pos hq, if_pos hq]
      · rw [if_neg hq, if_neg hq, ih]

theorem ainsert_ainsert_self {κ β : Type} [DecidableEq κ] (m : List (κ × β)) (k : κ) (v v' : β) :
    ainsert (ainsert m k v) k v' = ainsert m k v' := by
  induction m with
  | nil => simp [ainsert]
  | cons hd t ih =>
    obtain ⟨k', w'⟩ := hd
    by_cases hk : k' = k
    · subst hk; simp [ainsert]
    · simp [ainsert, hk, ih]

theorem isSome_alookup_ainsert {κ β : Type} [DecidableEq κ] (m : List (κ × β)) (k q : κ) (v : β)
    (h : (alookup m q).isSome) : (alookup (ainsert m k v) q).isSome := by
  by_cases hq : q = k
  · subst hq; simp [alookup_ainsert_self]
  · rwa [alookup_ainsert_ne m k q v hq]

theorem aerase_of_alookup_none {κ β : Type} [DecidableEq κ] (m : List (κ × β)) (k : κ)
    (h : alookup m k = none) : aerase m k = m := by
  induction m with
  | nil => rfl
  | cons hd t ih =>
    obtain ⟨k', v'⟩ := hd
    by_cases hk : k' = k
    · simp [alookup, hk] at h
    · simp only [alookup, if_neg hk] at h
      simp [aerase, hk, ih h]

theorem mem_sinsert_iff (x y : String) (l : List String) :
    y ∈ sinsert x l ↔ y = x ∨ y ∈ l := by
  by_cases h : x ∈ l
  · simp only [sinsert, if_pos h]
    constructor
    · exact Or.inr
    · rintro (rfl | hy) <;> [exact h; exact hy]
  · simp [sinsert, if_neg h]

theorem subset_sinsert (x : String) (l : List String) : l ⊆ sinsert x l := by
  intro y hy
  rw [mem_sinsert_iff]
  exact Or.inr hy

theorem mem_sinsert_self (x : String) (l : List String) : x ∈ sinsert x l := by
  rw [mem_sinsert_iff]
  exact Or.inl rfl

/-! ### Shape of the dirty cascade

`markDirty` only raises dirty flags of cached entries and unregisters IR
packages; it touches no other component of the state. -/

theorem markDirty_shape : ∀ fuel : Nat,
    (∀ st p r st', markDirty fuel st p = .ok r st' →
      (∀ q, alookup st'.Packages q = alookup st.Packages q ∨
        ∃ pk, alookup st.Packages q = some pk ∧
          alookup st'.Packages q = some { pk with dirty := true }) ∧
      st'.SSA ⊆ st.SSA ∧ st'.TypePackages = st.TypePackages ∧
      st'.Errors = st.Errors ∧ st'.nextHandle = st.nextHandle ∧
      st'.nextSSA = st.nextSSA ∧ st'.trace = st.trace) ∧
    (∀ st l r st', markDirtyFold fuel st l = .ok r st' →
      (∀ q, alookup st'.Packages q = alookup st.Packages q ∨
        ∃ pk, alookup st.Packages q = some pk ∧
          alookup st'.Packages q = some { pk with dirty := true }) ∧
      st'.SSA ⊆ st.SSA ∧ st'.TypePackages = st.TypePackages ∧
      st'.Errors = st.Errors ∧ st'.nextHandle = st.nextHandle ∧
      st'.nextSSA = st.nextSSA ∧ st'.trace = st.trace) := by
  intro fuel
  induction fuel with
  | zero =>
    constructor
    · intro st p r st' h
      simp [markDirty] at h
    · intro st l r st' h
      match l with
      | [] =>
        simp only [markDirtyFold] at h
        cases h
        refine ⟨fun q => Or.inl rfl, List.Subset.refl _, rfl, rfl, rfl, rfl, rfl⟩
      | _ :: _ => simp [markDirtyFold] at h
  | succ fuel ih =>
    obtain ⟨ihF, ihL⟩ := ih
    constructor
    · intro st p r st' h
      rw [markDirty] at h
      revert h
      cases hp : alookup st.Packages p with
      | none =>
        intro h
        cases h
        exact ⟨fun q => Or.inl rfl, List.Subset.refl _, rfl, rfl, rfl, rfl, rfl⟩
      | some pk =>
        intro h
        obtain ⟨hq, hssa, htp, herr, hh, hs, htr⟩ := ihL _ _ _ _ h
        refine ⟨fun q => ?_, ?_, htp, herr, hh, hs, htr⟩
        · rcases hq q with hq | ⟨pk', hpk', hq⟩
          · rw [hq]
            by_cases hqp : q = p
            · subst hqp
              rw [alookup_ainsert_self, hp]
              exact Or.inr ⟨pk, rfl, rfl⟩
            · rw [alookup_ainsert_ne _ _ _ _ hqp]
              exact Or.inl rfl
          · by_cases hqp : q = p
            · subst hqp
              rw [alookup_ainsert_self] at hpk'
              obtain rfl := (Option.some.inj hpk').symm
              rw [hq, hp]
              exact Or.inr ⟨pk, rfl, rfl⟩
            · rw [alookup_ainsert_ne _ _ _ _ hqp] at hpk'
              exact Or.inr ⟨pk', hpk', hq⟩
        · refine hssa.trans ?_
          cases pk.SSA with
          | none => exact List.Subset.refl _
          | some s => exact fun x hx => List.mem_of_mem_filter hx
    · intro st l r st' h
      match l with
      | [] =>
        simp only [markDirtyFold] at h
        cases h
        exact ⟨fun q => Or.inl rfl, List.Subset.refl _, rfl, rfl, rfl, rfl, rfl⟩
      | x :: xs =>
        rw [markDirtyFold] at h
        revert h
        cases hx : alookup st.Packages x with
        | none =>
          intro h
          exact ihL _ _ _ _ h
        | some pkx =>
          intro h
          revert h
          cases hm : markDirty fuel st x with
          | ok u st1 =>
            intro h
            obtain ⟨hq1, hssa1, htp1, herr1, hh1, hs1, htr1⟩ := ihF _ _ _ _ hm
            obtain ⟨hq2, hssa2, htp2, herr2, hh2, hs2, htr2⟩ := ihL _ _ _ _ h
            refine ⟨fun q => ?_, hssa2.trans hssa1, htp2.trans htp1,
              herr2.trans herr1, hh2.trans hh1, hs2.trans hs1, htr2.trans htr1⟩
            rcases hq2 q with hq2 | ⟨pk2, hpk2, hq2⟩
            · rw [hq2]
              exact hq1 q
            · rcases hq1 q with hq1 | ⟨pk1, hpk1, hq1⟩
              · rw [hq1] at hpk2
                exact Or.inr ⟨pk2, hpk2, hq2⟩
              · rw [hq1] at hpk2
                obtain rfl := (Option.some.inj hpk2).symm
                exact Or.inr ⟨pk1, hpk1, hq2⟩
          | err e st1 => intro h; exact absurd h (by simp)
          | diverge => intro h; exact absurd h (by simp)

/-- Auxiliary fact for the dirty-cascade claims: on the two-package cyclic
cache, `markDirty` and its loop exhaust every fuel bound. -/
theorem markDirty_cyc_aux : ∀ fuel : Nat, ∀ a b : Bool,
    (markDirty fuel (stCycF a b) "A" = .diverge ∧
     markDirty fuel (stCycF a b) "B" = .diverge) ∧
    (markDirtyFold fuel (stCycF a b) ["A"] = .diverge ∧
     markDirtyFold fuel (stCycF a b) ["B"] = .diverge) := by
  intro fuel
  induction fuel with
  | zero => intro a b; exact ⟨⟨rfl, rfl⟩, rfl, rfl⟩
  | succ fuel ih =>
    intro a b
    refine ⟨⟨?_, ?_⟩, ?_, ?_⟩
    · show markDirtyFold fuel (stCycF true b) ["B"] = .diverge
      exact ((ih true b).2).2
    · show markDirtyFold fuel (stCycF a true) ["A"] = .diverge
      exact ((ih a true).2).1
    · show (match markDirty fuel (stCycF a b) "A" with
        | .ok _ st' => markDirtyFold fuel st' []
        | .err e st' => .err e st'
        | .diverge => .diverge) = .diverge
      rw [((ih a b).1).1]
    · show (match markDirty fuel (stCycF a b) "B" with
        | .ok _ st' => markDirtyFold fuel st' []
        | .err e st' => .err e st'
        | .diverge => .diverge) = .diverge
      rw [((ih a b).1).2]

/-! ### C1 — the dirty cascade has no idempotence guard -/

/-- C1 counterexample: in `stGuard` the package `A` is already dirty, yet
`markDirty` still recurses into `A`'s reverse dependency `B` and dirties it
(the claimed idempotence guard would have stopped at once), and on the
two-package cyclic cache `stCyc` the recursion exhausts a fuel bound of 10,
far above the number of cached packages, so it is not bounded by the size
of the cache. -/
theorem markDirty_guard_counterexample :
    (alookup stGuard.Packages "A").map Package.dirty = some true ∧
    dirtyAfter (markDirty 5 stGuard "A") "B" = some true ∧
    markDirty 10 stCyc "A" = .diverge ∧
    stCyc.Packages.length = 2 := by decide

/-- C1 amended: `markDirty` sets `dirty = true` on the package and then
recurses into every cached reverse dependency unconditionally — its result
is identical whether or not the package was already dirty, so there is no
idempotence guard, and on a cyclic reverse-dependency graph the recursion
exhausts every fuel bound (it does not terminate); it is bounded only on
acyclic graphs. -/
theorem markDirty_no_idempotence_guard :
    (∀ (fuel : Nat) (st : Program) (p : String),
      markDirty fuel (dirtied st p) p = markDirty fuel st p) ∧
    (∀ fuel : Nat, markDirty fuel stCyc "A" = .diverge) := by
  constructor
  · intro fuel st p
    cases fuel with
    | zero => rfl
    | succ f =>
      rw [dirtied]
      cases hp : alookup st.Packages p with
      | none => rfl
      | some pk =>
        show markDirty (f + 1)
          { st with Packages := ainsert st.Packages p { pk with dirty := true } } p =
          markDirty (f + 1) st p
        rw [markDirty, markDirty, hp, alookup_ainsert_self]
        simp [ainsert_ainsert_self]
  · intro fuel
    exact ((markDirty_cyc_aux fuel false false).1).1

/-! ### C2 — `RecompileDirtyPackages` discards the recompiled package -/

/-- C2 (code bug): from the cache `stOne` whose only package `A` is dirty,
`RecompileDirtyPackages` returns without error yet `A` is still dirty
afterwards, because the loop discards the package returned by `compile`
instead of storing it; an immediately repeated call therefore recompiles
`A` again and changes the state instead of being a no-op. -/
theorem RecompileDirtyPackages_leaves_dirty :
    (okProgram (RecompileDirtyPackages wOne 10 stOne)).isSome = true ∧
    dirtyAfter (RecompileDirtyPackages wOne 10 stOne) "A" = some true ∧
    dirtyAfter (RecompileDirtyPackages wOne 10
      ((okProgram (RecompileDirtyPackages wOne 10 stOne)).getD initProgram)) "A" =
      some true ∧
    okProgram (RecompileDirtyPackages wOne 10
      ((okProgram (RecompileDirtyPackages wOne 10 stOne)).getD initProgram)) ≠
      some ((okProgram (RecompileDirtyPackages wOne 10 stOne)).getD initProgram) := by
  decide

/-! ### C3 — the resolver fast path -/

/-- C3: when the canonical path of an import resolves to a cached,
non-dirty package, `ImportFrom` returns that package's semantic type at
once; the only state change is the locator trace event — in particular the
parser, the semantic analyzer and the IR builder are not invoked and the
cache is untouched. -/
theorem ImportFrom_cached_fast_path (w : World) (fuel : Nat) (st : Program)
    (path srcDir : String) (bpkg : Desc) (pkg : Package)
    (hloc : w.locate path srcDir = some bpkg)
    (hpkg : alookup st.Packages bpkg.importPath = some pkg)
    (hclean : pkg.dirty = false) :
    ImportFrom w (fuel + 1) st path srcDir =
      .ok pkg.typesPkg (logEv st (.locate path srcDir)) := by
  rw [ImportFrom]
  simp only [logEv, hloc]
  show (match alookup st.Packages bpkg.importPath with
    | some pkg =>
      if pkg.dirty then
        importSlow w fuel { st with trace := st.trace ++ [Ev.locate path srcDir] }
          path srcDir bpkg.importPath
      else Outcome.ok pkg.typesPkg { st with trace := st.trace ++ [Ev.locate path srcDir] }
    | none =>
      importSlow w fuel { st with trace := st.trace ++ [Ev.locate path srcDir] }
        path srcDir bpkg.importPath) = _
  rw [hpkg]
  simp [hclean, logEv]

/-- Witness for C3: the clean cached `lib` entry of `stLib` is served from
the cache with only a locate event appended. -/
theorem ImportFrom_cached_fast_path_witness :
    ImportFrom wAppLib 5 stLib "lib" "dapp" =
      .ok (some 1) (logEv stLib (.locate "lib" "dapp")) :=
  ImportFrom_cached_fast_path wAppLib 4 stLib "lib" "dapp"
    ⟨"lib", "dlib", ["l.go"], [], []⟩ { newPackage with typesPkg := some 1 }
    rfl rfl rfl

/-! ### C5 — the stale handle mapping is not removed -/

/-- C5 (code bug): recompiling the cached path `A` of `stOne` (whose prior
entry has semantic handle 1) leaves the mapping of handle 1 in
`TypePackages` even though the recompiled entry carries the fresh handle 2;
the deletion in `compile` targets the nil handle of the fresh shell, not
the prior entry's handle. -/
theorem TypePackages_stale_after_recompile :
    (okProgram (Compile wOne 10 stOne "A")).isSome = true ∧
    alookup ((okProgram (Compile wOne 10 stOne "A")).getD initProgram).TypePackages
      (some 1) = some "A" ∧
    (alookup ((okProgram (Compile wOne 10 stOne "A")).getD initProgram).Packages "A").map
      Package.typesPkg = some (some 2) := by
  decide

/-! ### C9 — `markDirty` unregisters the IR package -/

/-- C9: `markDirty` on a cached package whose IR handle is registered
removes that handle from the shared IR program, while the package entry
itself keeps the stale reference: afterwards the entry is the old one with
only `dirty` raised, so its `SSA` field still holds the removed handle. -/
theorem markDirty_removes_IR (fuel : Nat) (st : Program) (p : String)
    (pk : Package) (s : Nat) (r : Unit) (st' : Program)
    (hpk : alookup st.Packages p = some pk) (hssa : pk.SSA = some s)
    (h : markDirty (fuel + 1) st p = .ok r st') :
    s ∉ st'.SSA ∧ alookup st'.Packages p = some { pk with dirty := true } ∧
    (∀ pk', alookup st'.Packages p = some pk' → pk'.SSA = some s) := by
  rw [markDirty, hpk] at h
  have hmid := (markDirty_shape fuel).2 _ _ _ _ h
  obtain ⟨hq, hsub, -⟩ := hmid
  have hentry : alookup st'.Packages p = some { pk with dirty := true } := by
    rcases hq p with he | ⟨pk1, hpk1, he⟩
    · rw [he, alookup_ainsert_self]
    · rw [alookup_ainsert_self] at hpk1
      cases hpk1
      rw [he]
  refine ⟨fun hmem => ?_, hentry, fun pk' hpk' => ?_⟩
  · have := hsub hmem
    rw [hssa] at this
    simp at this
  · rw [hentry] at hpk'
    cases hpk'
    show pk.SSA = some s
    exact hssa

/-! ### Shape of the edge-registration walk -/

/-- The walk only grows the new package's `Dependencies`; every other field
of the package is untouched. -/
theorem walkImports_fields (w : World) (l : List String) :
    ∀ st pkg me dir pkg' st', walkImports w st pkg me dir l = .ok pkg' st' →
      pkg'.typesPkg = pkg.typesPkg ∧ pkg'.Files = pkg.Files ∧ pkg'.SSA = pkg.SSA ∧
      pkg'.ReverseDependencies = pkg.ReverseDependencies ∧
      pkg'.Explicit = pkg.Explicit ∧ pkg'.dirty = pkg.dirty ∧
      pkg.Dependencies ⊆ pkg'.Dependencies := by
  induction l with
  | nil =>
    intro st pkg me dir pkg' st' h
    cases h
    exact ⟨rfl, rfl, rfl, rfl, rfl, rfl, List.Subset.refl _⟩
  | cons imp rest ih =>
    intro st pkg me dir pkg' st' h
    rw [walkImports] at h
    revert h
    cases hloc : w.locate imp dir with
    | none => intro h; exact absurd h (by simp)
    | some bdep =>
      cases hdep : alookup (logEv st (.locate imp dir)).Packages bdep.importPath with
      | none => intro h; exact absurd h (by simp [hdep])
      | some dep =>
        intro h
        simp only [hdep] at h
        obtain ⟨h1, h2, h3, h4, h5, h6, h7⟩ := ih _ _ _ _ _ _ h
        exact ⟨h1, h2, h3, h4, h5, h6,
          (subset_sinsert bdep.importPath pkg.Dependencies).trans h7⟩

/-- Along the walk, cached entries are only replaced by versions whose
reverse-dependency set has grown. -/
theorem walkImports_preserves (w : World) (l : List String) :
    ∀ st pkg me dir pkg' st', walkImports w st pkg me dir l = .ok pkg' st' →
      ∀ q pk, alookup st.Packages q = some pk →
        ∃ pk2, alookup st'.Packages q = some pk2 ∧
          pk.ReverseDependencies ⊆ pk2.ReverseDependencies := by
  induction l with
  | nil =>
    intro st pkg me dir pkg' st' h q pk hq
    cases h
    exact ⟨pk, hq, List.Subset.refl _⟩
  | cons imp rest ih =>
    intro st pkg me dir pkg' st' h q pk hq
    rw [walkImports] at h
    revert h
    cases hloc : w.locate imp dir with
    | none => intro h; exact absurd h (by simp)
    | some bdep =>
      cases hdep : alookup (logEv st (.locate imp dir)).Packages bdep.importPath with
      | none => intro h; exact absurd h (by simp [hdep])
      | some dep =>
        intro h
        simp only [hdep] at h
        by_cases hqk : q = bdep.importPath
        · subst hqk
          have hdq : some pk = some dep := hq.symm.trans hdep
          cases hdq
          obtain ⟨pk2, hpk2, hsub⟩ := ih _ _ _ _ _ _ h bdep.importPath
            { pk with ReverseDependencies := sinsert me pk.ReverseDependencies }
            (by
              show alookup (ainsert (logEv st (.locate imp dir)).Packages bdep.importPath
                { pk with ReverseDependencies := sinsert me pk.ReverseDependencies })
                bdep.importPath = _
              rw [alookup_ainsert_self])
          exact ⟨pk2, hpk2, (subset_sinsert me pk.ReverseDependencies).trans hsub⟩
        · obtain ⟨pk2, hpk2, hsub⟩ := ih _ _ _ _ _ _ h q pk
            (by
              show alookup (ainsert (logEv st (.locate imp dir)).Packages bdep.importPath
                { dep with ReverseDependencies := sinsert me dep.ReverseDependencies }) q =
                _
              rw [alookup_ainsert_ne _ _ _ _ hqk]
              exact hq)
          exact ⟨pk2, hpk2, hsub⟩

/-- After a completed walk, each located import is in the new package's
`Dependencies` and the current package is in the located dependency's
cached `ReverseDependencies`. -/
theorem walkImports_member (w : World) (l : List String) :
    ∀ st pkg me dir pkg' st', walkImports w st pkg me dir l = .ok pkg' st' →
      ∀ imp, imp ∈ l → ∀ bdep, w.locate imp dir = some bdep →
        bdep.importPath ∈ pkg'.Dependencies ∧
        ∃ dep2, alookup st'.Packages bdep.importPath = some dep2 ∧
          me ∈ dep2.ReverseDependencies := by
  induction l with
  | nil =>
    intro st pkg me dir pkg' st' h imp himp
    exact absurd himp (List.not_mem_nil imp)
  | cons x rest ih =>
    intro st pkg me dir pkg' st' h imp himp bdep hbdep
    rw [walkImports] at h
    revert h
    cases hloc : w.locate x dir with
    | none => intro h; exact absurd h (by simp)
    | some bx =>
      cases hdep : alookup (logEv st (.locate x dir)).Packages bx.importPath with
      | none => intro h; exact absurd h (by simp [hdep])
      | some dep =>
        intro h
        simp only [hdep] at h
        rcases List.mem_cons.mp himp with him | hrest
        · subst him
          rw [hloc] at hbdep
          cases hbdep
          constructor
          · have hfields := walkImports_fields w rest _ _ _ _ _ _ h
            exact hfields.2.2.2.2.2.2 (mem_sinsert_self bdep.importPath pkg.Dependencies)
          · have hpres := walkImports_preserves w rest _ _ _ _ _ _ h bdep.importPath
              { dep with ReverseDependencies := sinsert me dep.ReverseDependencies }
              (by
                show alookup (ainsert (logEv st (.locate imp dir)).Packages bdep.importPath
                  { dep with ReverseDependencies := sinsert me dep.ReverseDependencies })
                  bdep.importPath = _
                rw [alookup_ainsert_self])
            obtain ⟨pk2, hpk2, hsub⟩ := hpres
            exact ⟨pk2, hpk2, hsub (mem_sinsert_self me dep.ReverseDependencies)⟩
        · exact ih _ _ _ _ _ _ h imp hrest bdep hbdep

/-- The dependency set a completed walk produces is exactly the
deduplicated canonical import list. -/
theorem walkImports_canonDeps (w : World) (l : List String) :
    ∀ st pkg me dir pkg' st', walkImports w st pkg me dir l = .ok pkg' st' →
      canonDeps w dir pkg.Dependencies l = some pkg'.Dependencies := by
  induction l with
  | nil =>
    intro st pkg me dir pkg' st' h
    cases h
    rfl
  | cons imp rest ih =>
    intro st pkg me dir pkg' st' h
    rw [walkImports] at h
    revert h
    cases hloc : w.locate imp dir with
    | none => intro h; exact absurd h (by simp)
    | some bdep =>
      cases hdep : alookup (logEv st (.locate imp dir)).Packages bdep.importPath with
      | none => intro h; exact absurd h (by simp [hdep])
      | some dep =>
        intro h
        simp only [hdep] at h
        show (match w.locate imp dir with
          | none => none
          | some b => canonDeps w dir (sinsert b.importPath pkg.Dependencies) rest) =
          some pkg'.Dependencies
        rw [hloc]
        exact ih _ _ _ _ _ _ h

/-- Witness for C9: marking `A` of `stSSA` dirty removes its registered IR
handle 3 from the shared IR program while the cached entry still holds the
stale reference. -/
theorem markDirty_removes_IR_witness :
    (3 : Nat) ∉ ((okProgram (markDirty 5 stSSA "A")).getD initProgram).SSA ∧
    alookup ((okProgram (markDirty 5 stSSA "A")).getD initProgram).Packages "A" =
      some { newPackage with typesPkg := some 1, SSA := some 3, dirty := true } ∧
    (∀ pk', alookup ((okProgram (markDirty 5 stSSA "A")).getD initProgram).Packages "A" =
      some pk' → pk'.SSA = some 3) :=
  markDirty_removes_IR 4 stSSA "A"
    { newPackage with typesPkg := some 1, SSA := some 3 } 3 ()
    ((okProgram (markDirty 5 stSSA "A")).getD initProgram) rfl rfl (by decide)

theorem shellFor_typesPkg (st : Program) (path : String) :
    (shellFor st path).typesPkg = none := by
  rw [shellFor]
  cases alookup st.Packages path <;> rfl

theorem StEvol_refl (st : Program) : StEvol st st :=
  ⟨le_refl _, le_refl _, fun _ h => h⟩

theorem StEvol_trans {a b c : Program} (h1 : StEvol a b) (h2 : StEvol b c) :
    StEvol a c :=
  ⟨h1.1.trans h2.1, h1.2.1.trans h2.2.1, fun q hq => h2.2.2 q (h1.2.2 q hq)⟩

theorem resStEvol_trans_left {α : Type} {a b : Program} {o : Outcome α}
    (h1 : StEvol a b) (h2 : resStEvol b o) : resStEvol a o := by
  cases o with
  | ok v st' => exact StEvol_trans h1 h2
  | err e st' => exact StEvol_trans h1 h2
  | diverge => trivial

theorem markDirty_no_err : ∀ fuel : Nat,
    (∀ st p e st', markDirty fuel st p ≠ .err e st') ∧
    (∀ st l e st', markDirtyFold fuel st l ≠ .err e st') := by
  intro fuel
  induction fuel with
  | zero =>
    constructor
    · intro st p e st' h
      simp [markDirty] at h
    · intro st l e st' h
      match l with
      | [] => simp [markDirtyFold] at h
      | _ :: _ => simp [markDirtyFold] at h
  | succ fuel ih =>
    obtain ⟨ihF, ihL⟩ := ih
    constructor
    · intro st p e st' h
      rw [markDirty] at h
      revert h
      cases hp : alookup st.Packages p with
      | none => intro h; cases h
      | some pk => intro h; exact ihL _ _ _ _ h
    · intro st l e st' h
      match l with
      | [] => simp [markDirtyFold] at h
      | x :: xs =>
        rw [markDirtyFold] at h
        revert h
        cases hx : alookup st.Packages x with
        | none => intro h; exact ihL _ _ _ _ h
        | some pkx =>
          cases hm : markDirty fuel st x with
          | ok u st1 => intro h; exact ihL _ _ _ _ h
          | err e1 st1 => intro h; exact ihF _ _ _ _ hm
          | diverge => intro h; cases h

theorem markDirtyFold_stEvol (fuel : Nat) (st : Program) (l : List String)
    (r : Unit) (st' : Program) (h : markDirtyFold fuel st l = .ok r st') :
    StEvol st st' := by
  obtain ⟨hq, -, -, -, hh, hs, -⟩ := (markDirty_shape fuel).2 _ _ _ _ h
  refine ⟨le_of_eq hh.symm, le_of_eq hs.symm, fun q hq' => ?_⟩
  rcases hq q with he | ⟨pk, hpk, he⟩
  · rwa [he]
  · rw [he]; rfl

theorem parseFold_state (w : World) (files : List String) :
    ∀ st dir acc,
      (∀ names st2, parseFold w st dir acc files = .ok names st2 →
        names = acc ++ files ∧ st2.Packages = st.Packages ∧
        st2.TypePackages = st.TypePackages ∧ st2.SSA = st.SSA ∧
        st2.Errors = st.Errors ∧ st2.nextHandle = st.nextHandle ∧
        st2.nextSSA = st.nextSSA) ∧
      (∀ e st2, parseFold w st dir acc files = .err e st2 →
        st2.Packages = st.Packages ∧ st2.TypePackages = st.TypePackages ∧
        st2.SSA = st.SSA ∧ st2.Errors = st.Errors ∧
        st2.nextHandle = st.nextHandle ∧ st2.nextSSA = st.nextSSA) := by
  induction files with
  | nil =>
    intro st dir acc
    constructor
    · intro names st2 h
      cases h
      exact ⟨(List.append_nil acc).symm, rfl, rfl, rfl, rfl, rfl, rfl⟩
    · intro e st2 h
      cases h
  | cons f fs ih =>
    intro st dir acc
    constructor
    · intro names st2 h
      rw [parseFold] at h
      split at h
      · obtain ⟨h1, h2, h3, h4, h5, h6, h7⟩ := (ih _ dir (acc ++ [f])).1 names st2 h
        refine ⟨by simpa using h1, h2, h3, h4, h5, h6, h7⟩
      · cases h
    · intro e st2 h
      rw [parseFold] at h
      split at h
      · exact (ih (logEv st (.parseFile dir f)) dir (acc ++ [f])).2 e st2 h
      · cases h
        exact ⟨rfl, rfl, rfl, rfl, rfl, rfl⟩

theorem walkImports_state (w : World) (l : List String) :
    ∀ st pkg me dir,
      (∀ pkg' st', walkImports w st pkg me dir l = .ok pkg' st' →
        st'.TypePackages = st.TypePackages ∧ st'.SSA = st.SSA ∧
        st'.Errors = st.Errors ∧ st'.nextHandle = st.nextHandle ∧
        st'.nextSSA = st.nextSSA ∧
        (∀ q, (alookup st.Packages q).isSome → (alookup st'.Packages q).isSome)) ∧
      (∀ e st', walkImports w st pkg me dir l = .err e st' →
        st'.TypePackages = st.TypePackages ∧ st'.SSA = st.SSA ∧
        st'.Errors = st.Errors ∧ st'.nextHandle = st.nextHandle ∧
        st'.nextSSA = st.nextSSA ∧
        (∀ q, (alookup st.Packages q).isSome → (alookup st'.Packages q).isSome)) := by
  induction l with
  | nil =>
    intro st pkg me dir
    constructor
    · intro pkg' st' h
      cases h
      exact ⟨rfl, rfl, rfl, rfl, rfl, fun q hq => hq⟩
    · intro e st' h
      cases h
  | cons imp rest ih =>
    intro st pkg me dir
    constructor
    · intro pkg' st' h
      rw [walkImports] at h
      revert h
      cases hloc : w.locate imp dir with
      | none => intro h; exact absurd h (by simp)
      | some bdep =>
        cases hdep : alookup (logEv st (.locate imp dir)).Packages bdep.importPath with
        | none => intro h; exact absurd h (by simp [hdep])
        | some dep =>
          intro h
          simp only [hdep] at h
          obtain ⟨h1, h2, h3, h4, h5, h6⟩ := (ih _ _ me dir).1 pkg' st' h
          refine ⟨h1, h2, h3, h4, h5, fun q hq => h6 q ?_⟩
          exact isSome_alookup_ainsert _ _ _ _ hq
    · intro e st' h
      rw [walkImports] at h
      revert h
      cases hloc : w.locate imp dir with
      | none =>
        intro h
        replace h : Outcome.err CErr.locateErr (logEv st (.locate imp dir)) =
          Outcome.err e st' := h
        cases h
        exact ⟨rfl, rfl, rfl, rfl, rfl, fun q hq => hq⟩
      | some bdep =>
        cases hdep : alookup (logEv st (.locate imp dir)).Packages bdep.importPath with
        | none =>
          intro h
          simp only [hdep] at h
          replace h : Outcome.err CErr.nilDeref (logEv st (.locate imp dir)) =
            Outcome.err e st' := h
          cases h
          exact ⟨rfl, rfl, rfl, rfl, rfl, fun q hq => hq⟩
        | some dep =>
          intro h
          simp only [hdep] at h
          obtain ⟨h1, h2, h3, h4, h5, h6⟩ := (ih _ _ me dir).2 e st' h
          refine ⟨h1, h2, h3, h4, h5, fun q hq => h6 q ?_⟩
          exact isSome_alookup_ainsert _ _ _ _ hq

theorem loader_stEvol (w : World) : ∀ fuel : Nat,
    (∀ st path srcDir, resStEvol st (ImportFrom w fuel st path srcDir)) ∧
    (∀ st path srcDir canon, resStEvol st (importSlow w fuel st path srcDir canon)) ∧
    (∀ st imps dir, resStEvol st (resolveImports w fuel st imps dir)) ∧
    (∀ st path srcdir, resStEvol st (compile w fuel st path srcdir)) := by
  intro fuel
  induction fuel with
  | zero =>
    refine ⟨fun st path srcDir => trivial, fun st path srcDir canon => trivial,
      fun st imps dir => ?_, fun st path srcdir => trivial⟩
    match imps with
    | [] => exact StEvol_refl st
    | _ :: _ => trivial
  | succ fuel ih =>
    obtain ⟨ihI, ihS, ihR, ihC⟩ := ih
    have logE : ∀ st e, StEvol st (logEv st e) := fun st e => StEvol_refl st
    refine ⟨?_, ?_, ?_, ?_⟩
    · intro st path srcDir
      rw [ImportFrom]
      split
      · exact StEvol_refl st
      · split
        · split
          · exact resStEvol_trans_left (logE st _) (ihS _ _ _ _)
          · exact logE st _
        · exact resStEvol_trans_left (logE st _) (ihS _ _ _ _)
    · intro st path srcDir canon
      rw [importSlow]
      cases hc : compile w fuel st path srcDir with
      | ok pkg st2 =>
        have h2 : StEvol st st2 := by
          have := ihC st path srcDir
          rwa [hc] at this
        exact ⟨h2.1, h2.2.1, fun q hq =>
          isSome_alookup_ainsert _ _ _ _ (h2.2.2 q hq)⟩
      | err e st2 =>
        have := ihC st path srcDir
        rwa [hc] at this
      | diverge => trivial
    · intro st imps dir
      match imps with
      | [] => exact StEvol_refl st
      | imp :: rest =>
        rw [resolveImports]
        cases hi : ImportFrom w fuel st imp dir with
        | ok v st1 =>
          have h1 : StEvol st st1 := by
            have := ihI st imp dir
            rwa [hi] at this
          exact resStEvol_trans_left h1 (ihR st1 rest dir)
        | err e st1 =>
          have := ihI st imp dir
          rwa [hi] at this
        | diverge => trivial
    · intro st path srcdir
      by_cases hpath : path = "unsafe"
      · subst hpath
        rw [compile]
        rw [if_pos rfl]
        exact ⟨le_refl _, le_refl _, fun q hq => hq⟩
      · rw [compile]
        rw [if_neg hpath, shellFor_typesPkg]
        dsimp only
        cases hmd : markDirtyFold fuel
            { st with TypePackages := aerase st.TypePackages none }
            (shellFor st path).ReverseDependencies with
        | err e st1 => exact absurd hmd ((markDirty_no_err fuel).2 _ _ _ _)
        | diverge => exact trivial
        | ok u st1 =>
          have h1 : StEvol st st1 := StEvol_trans
            (⟨le_refl _, le_refl _, fun q hq => hq⟩ :
              StEvol st { st with TypePackages := aerase st.TypePackages none })
            (markDirtyFold_stEvol fuel _ _ _ _ hmd)
          dsimp only
          cases hbld : w.locate path srcdir with
          | none => exact h1
          | some bld =>
            dsimp only
            by_cases hcgo : bld.cgoFiles = []
            · rw [if_pos hcgo]
              cases hp : parseFold w (logEv st1 (.locate path srcdir)) bld.dir []
                  bld.goFiles with
              | err e st2 =>
                obtain ⟨e1, e2, e3, e4, e5, e6⟩ :=
                  (parseFold_state w bld.goFiles _ bld.dir []).2 e st2 hp
                exact StEvol_trans h1
                  ⟨le_of_eq e5.symm, le_of_eq e6.symm, fun q hq => by
                    rw [e1]; exact hq⟩
              | diverge => exact trivial
              | ok names st2 =>
                obtain ⟨-, e1, e2, e3, e4, e5, e6⟩ :=
                  (parseFold_state w bld.goFiles _ bld.dir []).1 names st2 hp
                have h2 : StEvol st st2 := StEvol_trans h1
                  ⟨le_of_eq e5.symm, le_of_eq e6.symm, fun q hq => by
                    rw [e1]; exact hq⟩
                dsimp only
                cases hr : resolveImports w fuel (logEv st2 (.check path))
                    bld.imports bld.dir with
                | err e2 st3 =>
                  have hri := ihR (logEv st2 (.check path)) bld.imports bld.dir
                  rw [hr] at hri
                  exact StEvol_trans h2 ⟨hri.1, hri.2.1, hri.2.2⟩
                | diverge => exact trivial
                | ok u2 st3 =>
                  have hri := ihR (logEv st2 (.check path)) bld.imports bld.dir
                  rw [hr] at hri
                  have h3 : StEvol st st3 :=
                    StEvol_trans h2 ⟨hri.1, hri.2.1, hri.2.2⟩
                  dsimp only
                  by_cases hchk : w.checkOk bld = true
                  · rw [if_pos hchk]
                    cases hw : walkImports w
                        { st3 with
                          nextHandle := st3.nextHandle + 1,
                          SSA := st3.SSA ++ [st3.nextSSA],
                          nextSSA := st3.nextSSA + 1,
                          trace := st3.trace ++ [Ev.buildIR path] }
                        { shellFor st path with
                          dirty := true, Files := names,
                          typesPkg := some st3.nextHandle, SSA := some st3.nextSSA }
                        bld.importPath bld.dir bld.imports with
                    | err e4 st4 =>
                      obtain ⟨f1, f2, f3, f4, f5, f6⟩ :=
                        (walkImports_state w bld.imports _ _ _ _).2 e4 st4 hw
                      exact StEvol_trans h3
                        ⟨by rw [f4]; exact Nat.le_succ _,
                         by rw [f5]; exact Nat.le_succ _,
                         fun q hq => f6 q hq⟩
                    | diverge => exact trivial
                    | ok pkgw st4 =>
                      obtain ⟨f1, f2, f3, f4, f5, f6⟩ :=
                        (walkImports_state w bld.imports _ _ _ _).1 pkgw st4 hw
                      exact StEvol_trans h3
                        ⟨by rw [f4]; exact Nat.le_succ _,
                         by rw [f5]; exact Nat.le_succ _,
                         fun q hq => f6 q hq⟩
                  · rw [if_neg hchk]
                    exact h3
            · rw [if_neg hcgo]
              exact h1

theorem compile_ok_inversion (w : World) (fuel : Nat) (st : Program) (path srcdir : String)
    (pkg : Package) (st' : Program) (hne : path ≠ "unsafe")
    (h : compile w (fuel + 1) st path srcdir = .ok pkg st') :
    ∃ st1 bld names st2 st3 pkgw,
      markDirtyFold fuel { st with TypePackages := aerase st.TypePackages none }
        (shellFor st path).ReverseDependencies = .ok () st1 ∧
      w.locate path srcdir = some bld ∧
      bld.cgoFiles = [] ∧
      parseFold w (logEv st1 (.locate path srcdir)) bld.dir [] bld.goFiles =
        .ok names st2 ∧
      resolveImports w fuel (logEv st2 (.check path)) bld.imports bld.dir =
        .ok () st3 ∧
      w.checkOk bld = true ∧
      walkImports w
        { st3 with
          nextHandle := st3.nextHandle + 1, SSA := st3.SSA ++ [st3.nextSSA],
          nextSSA := st3.nextSSA + 1, trace := st3.trace ++ [Ev.buildIR path] }
        { shellFor st path with
          dirty := true, Files := names,
          typesPkg := some st3.nextHandle, SSA := some st3.nextSSA }
        bld.importPath bld.dir bld.imports = .ok pkgw st' ∧
      pkg = { pkgw with dirty := false } := by
  rw [compile] at h
  rw [if_neg hne] at h
  rw [shellFor_typesPkg] at h
  dsimp only at h
  split at h
  · exact absurd h (by simp)
  · exact absurd h (by simp)
  next u st1 hmd =>
    split at h
    · exact absurd h (by simp)
    next bld hbld =>
      split at h
      case isFalse => exact absurd h (by simp)
      case isTrue hcgo =>
        split at h
        · exact absurd h (by simp)
        · exact absurd h (by simp)
        next names st2 hparse =>
          split at h
          · exact absurd h (by simp)
          · exact absurd h (by simp)
          next u2 st3 hres =>
            split at h
            case isFalse => exact absurd h (by simp)
            case isTrue hchk =>
              split at h
              · exact absurd h (by simp)
              · exact absurd h (by simp)
              next pkgw stw hwalk =>
                cases h
                exact ⟨st1, bld, names, st2, st3, pkgw, hmd, hbld, hcgo,
                  hparse, hres, hchk, hwalk, rfl⟩

theorem resolveImports_stEvol (w : World) (fuel : Nat) (st : Program)
    (imps : List String) (dir : String) (u : Unit) (st2 : Program)
    (h : resolveImports w fuel st imps dir = .ok u st2) : StEvol st st2 := by
  have := (loader_stEvol w fuel).2.2.1 st imps dir
  rwa [h] at this

/-- C7: recompiling a cached path carries forward exactly the prior entry's
`Explicit` flag and `ReverseDependencies`, while the parsed files, the
dependency set, the semantic handle and the IR handle of the replacement
package are rebuilt from this compile alone: the files are the located
descriptor's file list, the dependencies are recomputed from the
descriptor's import list, and the semantic and IR handles are freshly
allocated (at or above the allocator counters as of the start of the
compile, hence distinct from any previously issued handle). -/
theorem compile_carries_forward (w : World) (fuel : Nat) (st : Program)
    (path srcdir : String) (old pkg : Package) (st' : Program)
    (hne : path ≠ "unsafe")
    (hold : alookup st.Packages path = some old)
    (h : compile w (fuel + 1) st path srcdir = .ok pkg st') :
    pkg.Explicit = old.Explicit ∧
    pkg.ReverseDependencies = old.ReverseDependencies ∧
    ∃ bld, w.locate path srcdir = some bld ∧
      pkg.Files = bld.goFiles ∧
      canonDeps w bld.dir [] bld.imports = some pkg.Dependencies ∧
      (∃ h1, pkg.typesPkg = some h1 ∧ st.nextHandle ≤ h1) ∧
      (∃ s1, pkg.SSA = some s1 ∧ st.nextSSA ≤ s1) := by
  obtain ⟨st1, bld, names, st2, st3, pkgw, hmd, hbld, hcgo, hparse, hres, hchk,
    hwalk, rfl⟩ := compile_ok_inversion w fuel st path srcdir pkg st' hne h
  have hshell : shellFor st path =
      { newPackage with
        ReverseDependencies := old.ReverseDependencies,
        Explicit := old.Explicit } := by
    rw [shellFor, hold]
  obtain ⟨f1, f2, f3, f4, f5, f6, f7⟩ :=
    walkImports_fields w bld.imports _ _ _ _ _ _ hwalk
  have hmono1 : st.nextHandle ≤ st3.nextHandle ∧ st.nextSSA ≤ st3.nextSSA := by
    obtain ⟨-, -, -, -, g1, g2, -⟩ := (markDirty_shape fuel).2 _ _ _ _ hmd
    obtain ⟨-, -, -, -, -, g3, g4⟩ :=
      (parseFold_state w bld.goFiles _ bld.dir []).1 names st2 hparse
    have g5 := resolveImports_stEvol w fuel _ bld.imports bld.dir _ st3 hres
    constructor
    · calc st.nextHandle = st1.nextHandle := by rw [g1]
        _ = st2.nextHandle := by rw [g3]; rfl
        _ ≤ st3.nextHandle := g5.1
    · calc st.nextSSA = st1.nextSSA := by rw [g2]
        _ = st2.nextSSA := by rw [g4]; rfl
        _ ≤ st3.nextSSA := g5.2.1
  have hnames : names = bld.goFiles := by
    obtain ⟨g0, -⟩ := (parseFold_state w bld.goFiles _ bld.dir []).1 names st2 hparse
    simpa using g0
  refine ⟨?_, ?_, bld, hbld, ?_, ?_, ⟨st3.nextHandle, ?_, hmono1.1⟩,
    ⟨st3.nextSSA, ?_, hmono1.2⟩⟩
  · show pkgw.Explicit = old.Explicit
    rw [f5, hshell]
  · show pkgw.ReverseDependencies = old.ReverseDependencies
    rw [f4, hshell]
  · show pkgw.Files = bld.goFiles
    rw [f2, hnames]
  · have hcd := walkImports_canonDeps w bld.imports _ _ _ _ _ _ hwalk
    have hacc : ({ shellFor st path with
        dirty := true, Files := names,
        typesPkg := some st3.nextHandle, SSA := some st3.nextSSA } :
        Package).Dependencies = [] := by
      show (shellFor st path).Dependencies = []
      rw [hshell]
      rfl
    rw [hacc] at hcd
    exact hcd
  · show pkgw.typesPkg = some st3.nextHandle
    rw [f1]
  · show pkgw.SSA = some st3.nextSSA
    rw [f3]

/-- Witness for C7: recompiling the cached `app` entry of `stOld` in
`wAppLib` keeps `Explicit = true` and `ReverseDependencies = ["gone"]`
while rebuilding files, dependencies, and both handles. -/
theorem compile_carries_forward_witness :
    c7pkg.Explicit = true ∧
    c7pkg.ReverseDependencies = ["gone"] ∧
    ∃ bld, wAppLib.locate "app" "." = some bld ∧
      c7pkg.Files = bld.goFiles ∧
      canonDeps wAppLib bld.dir [] bld.imports = some c7pkg.Dependencies ∧
      (∃ h1, c7pkg.typesPkg = some h1 ∧ stOld.nextHandle ≤ h1) ∧
      (∃ s1, c7pkg.SSA = some s1 ∧ stOld.nextSSA ≤ s1) :=
  compile_carries_forward wAppLib 9 stOld "app" "."
    { typesPkg := some 1, Files := ["old.go"], SSA := some 0,
      Dependencies := ["oldDep"], ReverseDependencies := ["gone"],
      Explicit := true, dirty := true }
    c7pkg c7st (by decide) (by decide) (by decide)

/-- C4: when a successfully compiled package `A` (descriptor `bld`) imports
`imp` with canonical descriptor `bdep`, the edges are symmetric afterwards:
`bdep`'s import path is in `A`'s `Dependencies` and `A`'s import path is in
the cached `bdep` entry's `ReverseDependencies` (so membership on one side
holds exactly when it holds on the other). -/
theorem compile_registers_edges (w : World) (fuel : Nat) (st : Program)
    (path srcdir : String) (pkg : Package) (st' : Program) (bld : Desc)
    (imp : String) (bdep : Desc)
    (hne : path ≠ "unsafe")
    (h : compile w (fuel + 1) st path srcdir = .ok pkg st')
    (hbld : w.locate path srcdir = some bld)
    (himp : imp ∈ bld.imports)
    (hbdep : w.locate imp bld.dir = some bdep) :
    bdep.importPath ∈ pkg.Dependencies ∧
    ∃ dep, alookup st'.Packages bdep.importPath = some dep ∧
      bld.importPath ∈ dep.ReverseDependencies ∧
      (bdep.importPath ∈ pkg.Dependencies ↔
        bld.importPath ∈ dep.ReverseDependencies) := by
  obtain ⟨st1, bld', names, st2, st3, pkgw, hmd, hbld', hcgo, hparse, hres, hchk,
    hwalk, rfl⟩ := compile_ok_inversion w fuel st path srcdir pkg st' hne h
  rw [hbld] at hbld'
  cases hbld'
  obtain ⟨hdep, dep, hlook, hrdep⟩ :=
    walkImports_member w bld.imports _ _ _ _ _ _ hwalk imp himp bdep hbdep
  refine ⟨hdep, dep, hlook, hrdep, ⟨fun _ => hrdep, fun _ => hdep⟩⟩

/-- Witness for C4: after compiling `app` (which imports `lib`) from the
fresh state, `lib` is in `app`'s dependencies and `app` is in the cached
`lib` entry's reverse dependencies. -/
theorem compile_registers_edges_witness :
    "lib" ∈ c4pkg.Dependencies ∧
    ∃ dep, alookup c4st.Packages "lib" = some dep ∧
      "app" ∈ dep.ReverseDependencies ∧
      ("lib" ∈ c4pkg.Dependencies ↔ "app" ∈ dep.ReverseDependencies) :=
  compile_registers_edges wAppLib 9 initProgram "app" "." c4pkg c4st
    ⟨"app", "dapp", ["a.go"], [], ["lib"]⟩ "lib" ⟨"lib", "dlib", ["l.go"], [], []⟩
    (by decide) (by decide) (by decide) (by decide) (by decide)

theorem importSlow_present (w : World) (fuel : Nat) (st : Program)
    (path srcDir canon : String) (v : Option Nat) (st1 : Program)
    (h : importSlow w fuel st path srcDir canon = .ok v st1) :
    (alookup st1.Packages canon).isSome := by
  cases fuel with
  | zero => simp [importSlow] at h
  | succ f =>
    rw [importSlow] at h
    revert h
    cases hc : compile w f st path srcDir with
    | ok pkg st2 =>
      intro h
      cases h
      show (alookup (ainsert st2.Packages canon pkg) canon).isSome = true
      rw [alookup_ainsert_self]
      rfl
    | err e st2 => intro h; exact absurd h (by simp)
    | diverge => intro h; exact absurd h (by simp)

theorem ImportFrom_ok_present (w : World) (fuel : Nat) (st : Program)
    (path srcDir : String) (v : Option Nat) (st1 : Program)
    (h : ImportFrom w fuel st path srcDir = .ok v st1) :
    ∃ bpkg, w.locate path srcDir = some bpkg ∧
      (alookup st1.Packages bpkg.importPath).isSome := by
  cases fuel with
  | zero => simp [ImportFrom] at h
  | succ f =>
    rw [ImportFrom] at h
    revert h
    cases hloc : w.locate path srcDir with
    | none => intro h; exact absurd h (by simp)
    | some bpkg =>
      cases hcache : alookup (logEv st (.locate path srcDir)).Packages
          bpkg.importPath with
      | some pkg =>
        intro h
        simp only [hcache] at h
        by_cases hd : pkg.dirty
        · rw [if_pos hd] at h
          exact ⟨bpkg, rfl, importSlow_present w f _ path srcDir _ v st1 h⟩
        · rw [if_neg hd] at h
          cases h
          refine ⟨bpkg, rfl, ?_⟩
          show (alookup (logEv st (.locate path srcDir)).Packages bpkg.importPath).isSome
            = true
          rw [hcache]
          rfl
      | none =>
        intro h
        simp only [hcache] at h
        exact ⟨bpkg, rfl, importSlow_present w f _ path srcDir _ v st1 h⟩

theorem walkImports_total (w : World) (dir : String) :
    ∀ l st (pkg : Package) me,
      (∀ imp, imp ∈ l → ∃ bdep, w.locate imp dir = some bdep ∧
        (alookup st.Packages bdep.importPath).isSome) →
      ∃ pkg' st4, walkImports w st pkg me dir l = .ok pkg' st4 := by
  intro l
  induction l with
  | nil => intro st pkg me _; exact ⟨pkg, st, rfl⟩
  | cons imp rest ih =>
    intro st pkg me hall
    obtain ⟨bdep, hb, hpres⟩ := hall imp (List.mem_cons_self imp rest)
    obtain ⟨dep, hdep⟩ := Option.isSome_iff_exists.mp hpres
    rw [walkImports]
    have hdep' : alookup (logEv st (.locate imp dir)).Packages bdep.importPath =
      some dep := hdep
    rw [hb]
    simp only [hdep']
    refine ih _ _ me (fun imp' himp' => ?_)
    obtain ⟨bdep', hb', hpres'⟩ := hall imp' (List.mem_cons_of_mem imp himp')
    refine ⟨bdep', hb', ?_⟩
    exact isSome_alookup_ainsert _ _ _ _ hpres'

/-- C10: once the import-resolution phase of the semantic analysis has
succeeded, every import in the descriptor's list has a located canonical
path with a present (non-nil) entry in the package cache, so the
edge-registration walk that follows — run from any state with that cache —
never hits the nil-dereference panic and completes. -/
theorem resolveImports_populates (w : World) (fuel : Nat) (st : Program)
    (imps : List String) (dir : String) (u : Unit) (st2 : Program)
    (h : resolveImports w fuel st imps dir = .ok u st2) :
    (∀ imp, imp ∈ imps → ∃ bdep, w.locate imp dir = some bdep ∧
      (alookup st2.Packages bdep.importPath).isSome) ∧
    (∀ st3, st3.Packages = st2.Packages → ∀ (pkg : Package) me,
      ∃ pkg' st4, walkImports w st3 pkg me dir imps = .ok pkg' st4) := by
  have ha : ∀ imp, imp ∈ imps → ∃ bdep, w.locate imp dir = some bdep ∧
      (alookup st2.Packages bdep.importPath).isSome := by
    induction imps generalizing fuel st with
    | nil => intro imp himp; exact absurd himp (List.not_mem_nil imp)
    | cons x rest ih =>
      intro imp himp
      cases fuel with
      | zero => simp [resolveImports] at h
      | succ f =>
        rw [resolveImports] at h
        revert h
        cases hi : ImportFrom w f st x dir with
        | ok v st1 =>
          intro h
          rcases List.mem_cons.mp himp with rfl | hrest
          · obtain ⟨bpkg, hb, hpres⟩ := ImportFrom_ok_present w f st imp dir v st1 hi
            have hev := resolveImports_stEvol w f st1 rest dir u st2 h
            exact ⟨bpkg, hb, hev.2.2 _ hpres⟩
          · exact ih f st1 h imp hrest
        | err e st1 => intro h; exact absurd h (by simp)
        | diverge => intro h; exact absurd h (by simp)
  refine ⟨ha, fun st3 hst3 pkg me => ?_⟩
  refine walkImports_total w dir imps st3 pkg me (fun imp himp => ?_)
  obtain ⟨bdep, hb, hpres⟩ := ha imp himp
  refine ⟨bdep, hb, ?_⟩
  rw [hst3]
  exact hpres

/-- Witness for C10: resolving the single import `lib` of `app` from the
fresh state caches `lib`, and the subsequent edge walk completes from any
state carrying that cache. -/
theorem resolveImports_populates_witness :
    (∀ imp, imp ∈ ["lib"] → ∃ bdep, wAppLib.locate imp "dapp" = some bdep ∧
      (alookup c10st.Packages bdep.importPath).isSome) ∧
    (∀ st3, st3.Packages = c10st.Packages → ∀ (pkg : Package) me,
      ∃ pkg' st4, walkImports wAppLib st3 pkg me "dapp" ["lib"] = .ok pkg' st4) :=
  resolveImports_populates wAppLib 9 initProgram ["lib"] "dapp" () c10st (by decide)

theorem KeyEvol_refl (k : String) (st : Program) : KeyEvol k st st :=
  Or.inl rfl

theorem KeyEvol_trans {k : String} {a b c : Program}
    (h1 : KeyEvol k a b) (h2 : KeyEvol k b c) : KeyEvol k a c := by
  rcases h1 with h1 | ⟨pk1, hpk1, h1⟩
  · rcases h2 with h2 | ⟨pk2, hpk2, h2⟩
    · exact Or.inl (h2.trans h1)
    · rw [h1] at hpk2
      exact Or.inr ⟨pk2, hpk2, h2⟩
  · rcases h2 with h2 | ⟨pk2, hpk2, h2⟩
    · exact Or.inr ⟨pk1, hpk1, h2.trans h1⟩
    · rw [h1] at hpk2
      cases hpk2
      exact Or.inr ⟨pk1, hpk1, h2⟩

theorem resKeyEvol_trans_left {α : Type} {k : String} {a b : Program}
    {o : Outcome α} (h1 : KeyEvol k a b) (h2 : resKeyEvol k b o) :
    resKeyEvol k a o := by
  cases o with
  | ok v st' => exact KeyEvol_trans h1 h2
  | err e st' => exact KeyEvol_trans h1 h2
  | diverge => trivial

theorem markDirtyFold_keyEvol (k : String) (fuel : Nat) (st : Program)
    (l : List String) (r : Unit) (st' : Program)
    (h : markDirtyFold fuel st l = .ok r st') : KeyEvol k st st' := by
  obtain ⟨hq, -⟩ := (markDirty_shape fuel).2 _ _ _ _ h
  rcases hq k with he | ⟨pk, hpk, he⟩
  · exact Or.inl he
  · exact Or.inr ⟨pk, hpk, he⟩

theorem walkImports_keyUntouched (w : World) (k : String) (l : List String) :
    ∀ st pkg me dir,
      (∀ imp, imp ∈ l → ∀ bdep, w.locate imp dir = some bdep →
        bdep.importPath ≠ k) →
      (∀ pkg' st', walkImports w st pkg me dir l = .ok pkg' st' →
        alookup st'.Packages k = alookup st.Packages k) ∧
      (∀ e st', walkImports w st pkg me dir l = .err e st' →
        alookup st'.Packages k = alookup st.Packages k) := by
  induction l with
  | nil =>
    intro st pkg me dir _
    constructor
    · intro pkg' st' h
      cases h
      rfl
    · intro e st' h
      cases h
  | cons imp rest ih =>
    intro st pkg me dir havoid
    constructor
    · intro pkg' st' h
      rw [walkImports] at h
      revert h
      cases hloc : w.locate imp dir with
      | none => intro h; exact absurd h (by simp)
      | some bdep =>
        cases hdep : alookup (logEv st (.locate imp dir)).Packages bdep.importPath with
        | none => intro h; exact absurd h (by simp [hdep])
        | some dep =>
          intro h
          simp only [hdep] at h
          have hrest := (ih _ _ me dir
            (fun i hi b hb => havoid i (List.mem_cons_of_mem imp hi) b hb)).1 pkg' st' h
          rw [hrest]
          show alookup (ainsert (logEv st (.locate imp dir)).Packages bdep.importPath
            { dep with ReverseDependencies := sinsert me dep.ReverseDependencies }) k =
            alookup st.Packages k
          rw [alookup_ainsert_ne]
          · rfl
          · exact fun hk => havoid imp (List.mem_cons_self imp rest) bdep hloc hk.symm
    · intro e st' h
      rw [walkImports] at h
      revert h
      cases hloc : w.locate imp dir with
      | none =>
        intro h
        replace h : Outcome.err CErr.locateErr (logEv st (.locate imp dir)) =
          Outcome.err e st' := h
        cases h
        rfl
      | some bdep =>
        cases hdep : alookup (logEv st (.locate imp dir)).Packages bdep.importPath with
        | none =>
          intro h
          simp only [hdep] at h
          replace h : Outcome.err CErr.nilDeref (logEv st (.locate imp dir)) =
            Outcome.err e st' := h
          cases h
          rfl
        | some dep =>
          intro h
          simp only [hdep] at h
          have hrest := (ih _ _ me dir
            (fun i hi b hb => havoid i (List.mem_cons_of_mem imp hi) b hb)).2 e st' h
          rw [hrest]
          show alookup (ainsert (logEv st (.locate imp dir)).Packages bdep.importPath
            { dep with ReverseDependencies := sinsert me dep.ReverseDependencies }) k =
            alookup st.Packages k
          rw [alookup_ainsert_ne]
          · rfl
          · exact fun hk => havoid imp (List.mem_cons_self imp rest) bdep hloc hk.symm

theorem loader_keyEvol (w : World) (k : String) (hno : NoImportOf w k) :
    ∀ fuel : Nat,
    (∀ st path srcDir,
      (∀ desc', w.locate path srcDir = some desc' → desc'.importPath ≠ k) →
      resKeyEvol k st (ImportFrom w fuel st path srcDir)) ∧
    (∀ st path srcDir canon, canon ≠ k →
      resKeyEvol k st (importSlow w fuel st path srcDir canon)) ∧
    (∀ st imps dir,
      (∀ imp, imp ∈ imps → ∀ desc', w.locate imp dir = some desc' →
        desc'.importPath ≠ k) →
      resKeyEvol k st (resolveImports w fuel st imps dir)) ∧
    (∀ st path srcdir, resKeyEvol k st (compile w fuel st path srcdir)) := by
  intro fuel
  induction fuel with
  | zero =>
    refine ⟨fun st path srcDir _ => trivial, fun st path srcDir canon _ => trivial,
      fun st imps dir _ => ?_, fun st path srcdir => trivial⟩
    match imps with
    | [] => exact KeyEvol_refl k st
    | _ :: _ => trivial
  | succ fuel ih =>
    obtain ⟨ihI, ihS, ihR, ihC⟩ := ih
    refine ⟨?_, ?_, ?_, ?_⟩
    · intro st path srcDir hpath
      rw [ImportFrom]
      split
      · exact KeyEvol_refl k _
      next bpkg hbpkg =>
        have hcanon : bpkg.importPath ≠ k := hpath bpkg hbpkg
        split
        · split
          · exact resKeyEvol_trans_left (KeyEvol_refl k _) (ihS _ _ _ _ hcanon)
          · exact KeyEvol_refl k _
        · exact resKeyEvol_trans_left (KeyEvol_refl k _) (ihS _ _ _ _ hcanon)
    · intro st path srcDir canon hcanon
      rw [importSlow]
      cases hc : compile w fuel st path srcDir with
      | ok pkg st2 =>
        have h2 : KeyEvol k st st2 := by
          have := ihC st path srcDir
          rwa [hc] at this
        refine KeyEvol_trans h2 ?_
        show KeyEvol k st2 { st2 with
          Packages := ainsert st2.Packages canon pkg,
          TypePackages := ainsert st2.TypePackages pkg.typesPkg canon }
        refine Or.inl ?_
        show alookup (ainsert st2.Packages canon pkg) k = alookup st2.Packages k
        exact alookup_ainsert_ne _ _ _ _ (fun hk => hcanon hk.symm)
      | err e st2 =>
        have := ihC st path srcDir
        rwa [hc] at this
      | diverge => trivial
    · intro st imps dir hall
      match imps with
      | [] => exact KeyEvol_refl k st
      | imp :: rest =>
        rw [resolveImports]
        cases hi : ImportFrom w fuel st imp dir with
        | ok v st1 =>
          have h1 : KeyEvol k st st1 := by
            have := ihI st imp dir
              (fun desc' hd => hall imp (List.mem_cons_self imp rest) desc' hd)
            rwa [hi] at this
          exact resKeyEvol_trans_left h1 (ihR st1 rest dir
            (fun i hi' d hd => hall i (List.mem_cons_of_mem imp hi') d hd))
        | err e st1 =>
          have := ihI st imp dir
            (fun desc' hd => hall imp (List.mem_cons_self imp rest) desc' hd)
          rwa [hi] at this
        | diverge => trivial
    · intro st path srcdir
      by_cases hpath : path = "unsafe"
      · subst hpath
        rw [compile]
        rw [if_pos rfl]
        exact KeyEvol_refl k _
      · rw [compile]
        rw [if_neg hpath, shellFor_typesPkg]
        dsimp only
        cases hmd : markDirtyFold fuel
            { st with TypePackages := aerase st.TypePackages none }
            (shellFor st path).ReverseDependencies with
        | err e st1 => exact absurd hmd ((markDirty_no_err fuel).2 _ _ _ _)
        | diverge => exact trivial
        | ok u st1 =>
          have h1 : KeyEvol k st st1 := KeyEvol_trans
            (Or.inl rfl :
              KeyEvol k st { st with TypePackages := aerase st.TypePackages none })
            (markDirtyFold_keyEvol k fuel _ _ _ _ hmd)
          dsimp only
          cases hbld : w.locate path srcdir with
          | none => exact h1
          | some bld =>
            dsimp only
            by_cases hcgo : bld.cgoFiles = []
            · rw [if_pos hcgo]
              cases hp : parseFold w (logEv st1 (.locate path srcdir)) bld.dir []
                  bld.goFiles with
              | err e st2 =>
                obtain ⟨e1, -⟩ := (parseFold_state w bld.goFiles _ bld.dir []).2 e st2 hp
                refine KeyEvol_trans h1 (Or.inl ?_)
                rw [e1]
                rfl
              | diverge => exact trivial
              | ok names st2 =>
                obtain ⟨-, e1, -⟩ := (parseFold_state w bld.goFiles _ bld.dir []).1
                  names st2 hp
                have h2 : KeyEvol k st st2 := KeyEvol_trans h1 (Or.inl (by rw [e1]; rfl))
                have hallimp : ∀ imp, imp ∈ bld.imports → ∀ desc',
                    w.locate imp bld.dir = some desc' → desc'.importPath ≠ k :=
                  fun imp hi desc' hd => hno path srcdir bld hbld imp hi bld.dir desc' hd
                dsimp only
                cases hr : resolveImports w fuel (logEv st2 (.check path))
                    bld.imports bld.dir with
                | err e2 st3 =>
                  have hri : KeyEvol k (logEv st2 (.check path)) st3 := by
                    have := ihR (logEv st2 (.check path)) bld.imports bld.dir hallimp
                    rwa [hr] at this
                  exact KeyEvol_trans h2 hri
                | diverge => exact trivial
                | ok u2 st3 =>
                  have h3 : KeyEvol k st st3 := KeyEvol_trans h2 (by
                    have := ihR (logEv st2 (.check path)) bld.imports bld.dir hallimp
                    rwa [hr] at this)
                  dsimp only
                  by_cases hchk : w.checkOk bld = true
                  · rw [if_pos hchk]
                    have havoid : ∀ imp, imp ∈ bld.imports → ∀ bdep,
                        w.locate imp bld.dir = some bdep → bdep.importPath ≠ k :=
                      fun imp hi b hb => hallimp imp hi b hb
                    cases hw : walkImports w
                        { st3 with
                          nextHandle := st3.nextHandle + 1,
                          SSA := st3.SSA ++ [st3.nextSSA],
                          nextSSA := st3.nextSSA + 1,
                          trace := st3.trace ++ [Ev.buildIR path] }
                        { shellFor st path with
                          dirty := true, Files := names,
                          typesPkg := some st3.nextHandle, SSA := some st3.nextSSA }
                        bld.importPath bld.dir bld.imports with
                    | err e4 st4 =>
                      have hk := (walkImports_keyUntouched w k bld.imports _ _ _ _
                        havoid).2 e4 st4 hw
                      exact KeyEvol_trans h3 (Or.inl hk)
                    | diverge => exact trivial
                    | ok pkgw st4 =>
                      have hk := (walkImports_keyUntouched w k bld.imports _ _ _ _
                        havoid).1 pkgw st4 hw
                      exact KeyEvol_trans h3 (Or.inl hk)
                  · rw [if_neg hchk]
                    exact h3
            · rw [if_neg hcgo]
              exact h1

/-- C6: when a top-level `Compile path` returns an error — for a path that
nothing in the world imports, i.e. a root — no entry for that path is
inserted into the package cache: an absent entry stays absent, and a
previous cached entry is left in place, at most with its dirty flag raised
by the cascade, never replaced by a partial package. -/
theorem Compile_error_preserves_entry (w : World) (fuel : Nat) (st : Program)
    (path : String) (e : CErr) (st' : Program)
    (hno : NoImportOf w path)
    (h : Compile w fuel st path = .err e st') :
    (alookup st.Packages path = none → alookup st'.Packages path = none) ∧
    (∀ old, alookup st.Packages path = some old →
      alookup st'.Packages path = some old ∨
      alookup st'.Packages path = some { old with dirty := true }) := by
  have hkey : KeyEvol path { st with Errors := [] } st' := by
    rw [Compile] at h
    revert h
    cases hc : compile w fuel { st with Errors := [] } path "." with
    | diverge => intro h; exact absurd h (by simp)
    | err e2 st2 =>
      intro h
      have hc' := (loader_keyEvol w path hno fuel).2.2.2
        { st with Errors := [] } path "."
      rw [hc] at hc'
      dsimp only at h
      by_cases hE : st2.Errors = []
      · rw [if_pos hE] at h
        cases h
        exact hc'
      · rw [if_neg hE] at h
        cases h
        exact hc'
    | ok pkg st2 =>
      intro h
      have hc' := (loader_keyEvol w path hno fuel).2.2.2
        { st with Errors := [] } path "."
      rw [hc] at hc'
      dsimp only at h
      by_cases hE : st2.Errors = []
      · rw [if_pos hE] at h
        exact absurd h (by simp)
      · rw [if_neg hE] at h
        cases h
        exact hc'
  constructor
  · intro hnone
    rcases hkey with he | ⟨pk, hpk, -⟩
    · rw [he]
      exact hnone
    · have hpk' : alookup st.Packages path = some pk := hpk
      rw [hnone] at hpk'
      cases hpk'
  · intro old hold
    rcases hkey with he | ⟨pk, hpk, he⟩
    · left
      rw [he]
      exact hold
    · have hpk' : alookup st.Packages path = some pk := hpk
      rw [hold] at hpk'
      cases hpk'
      right
      exact he

/-- Witness for C6: `Compile "app"` in `wMissing` fails with the
accumulated type-error batch (its import `missing` cannot be located) and
the cache still has no entry for `app`. -/
theorem Compile_error_preserves_entry_witness :
    (alookup initProgram.Packages "app" = none →
      alookup c6st.Packages "app" = none) ∧
    (∀ old, alookup initProgram.Packages "app" = some old →
      alookup c6st.Packages "app" = some old ∨
      alookup c6st.Packages "app" = some { old with dirty := true }) :=
  Compile_error_preserves_entry wMissing 10 initProgram "app" .typeErr c6st
    (by
      intro p d desc hl imp himp d' desc' hl'
      simp only [wMissing] at hl hl'
      by_cases hp : p = "app"
      · rw [if_pos hp] at hl
        cases hl
        simp at himp
        subst himp
        rw [if_neg (by decide : ¬("missing" : String) = "app")] at hl'
        cases hl'
      · rw [if_neg hp] at hl
        cases hl)
    (by decide)

theorem alookup_aerase_self {κ β : Type} [DecidableEq κ] (m : List (κ × β)) (k : κ) :
    alookup (aerase m k) k = none := by
  induction m with
  | nil => rfl
  | cons hd t ih =>
    obtain ⟨k', v'⟩ := hd
    by_cases hk : k' = k
    · simp [aerase, hk, ih]
    · simp [aerase, alookup, hk, ih]

theorem not_mem_sinsert (x y : String) (l : List String) (h1 : x ∉ l) (h2 : x ≠ y) :
    x ∉ sinsert y l := by
  rw [mem_sinsert_iff]
  rintro (rfl | hx)
  · exact h2 rfl
  · exact h1 hx

theorem shellFor_Files (st : Program) (path : String) :
    (shellFor st path).Files = [] := by
  rw [shellFor]
  cases alookup st.Packages path <;> rfl

theorem shellFor_rdeps_inv (st : Program) (path : String) (hB : ∀ p pk,
    alookup st.Packages p = some pk → "unsafe" ∉ pk.ReverseDependencies) :
    "unsafe" ∉ (shellFor st path).ReverseDependencies := by
  rw [shellFor]
  cases hl : alookup st.Packages path with
  | none => simp [newPackage]
  | some old => exact hB path old hl

theorem Inv_transport {st1 st2 : Program} (hP : st2.Packages = st1.Packages)
    (hT : st2.TypePackages = st1.TypePackages) (h : Inv st1) : Inv st2 := by
  obtain ⟨hA, hB, hC⟩ := h
  refine ⟨?_, ?_, ?_⟩
  · intro u hu
    rw [hP] at hu
    exact hA u hu
  · intro p pk hpk
    rw [hP] at hpk
    exact hB p pk hpk
  · rw [hT]
    exact hC

theorem markDirty_inv : ∀ fuel : Nat,
    (∀ st p r st', Inv st → p ≠ "unsafe" →
      markDirty fuel st p = .ok r st' → Inv st') ∧
    (∀ st l r st', Inv st → "unsafe" ∉ l →
      markDirtyFold fuel st l = .ok r st' → Inv st') := by
  intro fuel
  induction fuel with
  | zero =>
    constructor
    · intro st p r st' hi hp h
      simp [markDirty] at h
    · intro st l r st' hi hl h
      match l with
      | [] =>
        simp only [markDirtyFold] at h
        cases h
        exact hi
      | _ :: _ => simp [markDirtyFold] at h
  | succ fuel ih =>
    obtain ⟨ihF, ihL⟩ := ih
    constructor
    · intro st p r st' hi hp h
      rw [markDirty] at h
      revert h
      cases hlp : alookup st.Packages p with
      | none =>
        intro h
        cases h
        exact hi
      | some pk =>
        intro h
        refine ihL _ _ _ _ ?_ (hi.2.1 p pk hlp) h
        obtain ⟨hA, hB, hC⟩ := hi
        refine ⟨?_, ?_, hC⟩
        · intro u hu
          rw [alookup_ainsert_ne _ _ _ _ (fun hk => hp hk.symm)] at hu
          exact hA u hu
        · intro q pkq hpkq
          by_cases hqp : q = p
          · subst hqp
            rw [alookup_ainsert_self] at hpkq
            cases hpkq
            exact hB q pk hlp
          · rw [alookup_ainsert_ne _ _ _ _ hqp] at hpkq
            exact hB q pkq hpkq
    · intro st l r st' hi hl h
      match l with
      | [] =>
        simp only [markDirtyFold] at h
        cases h
        exact hi
      | x :: xs =>
        rw [markDirtyFold] at h
        revert h
        have hx' : x ≠ "unsafe" := fun hk => hl (hk ▸ List.mem_cons_self x xs)
        have hxs : "unsafe" ∉ xs := fun hk => hl (List.mem_cons_of_mem x hk)
        cases hlx : alookup st.Packages x with
        | none => intro h; exact ihL _ _ _ _ hi hxs h
        | some pkx =>
          cases hm : markDirty fuel st x with
          | ok u st1 =>
            intro h
            exact ihL _ _ _ _ (ihF _ _ _ _ hi hx' hm) hxs h
          | err e1 st1 => intro h; exact absurd hm ((markDirty_no_err fuel).1 _ _ _ _)
          | diverge => intro h; cases h

theorem walkImports_inv (w : World) (l : List String) :
    ∀ st pkg me dir, Inv st → me ≠ "unsafe" →
      (∀ pkg' st', walkImports w st pkg me dir l = .ok pkg' st' → Inv st') ∧
      (∀ e st', walkImports w st pkg me dir l = .err e st' → Inv st') := by
  induction l with
  | nil =>
    intro st pkg me dir hi hme
    constructor
    · intro pkg' st' h
      cases h
      exact hi
    · intro e st' h
      cases h
  | cons imp rest ih =>
    intro st pkg me dir hi hme
    have hstep : ∀ (bdep : Desc) (dep : Package),
        alookup (logEv st (.locate imp dir)).Packages bdep.importPath = some dep →
        Inv { logEv st (.locate imp dir) with
          Packages := ainsert (logEv st (.locate imp dir)).Packages bdep.importPath
            { dep with ReverseDependencies := sinsert me dep.ReverseDependencies } } := by
      intro bdep dep hdep
      obtain ⟨hA, hB, hC⟩ := hi
      have hdep' : alookup st.Packages bdep.importPath = some dep := hdep
      refine ⟨?_, ?_, hC⟩
      · intro u hu
        by_cases hk : ("unsafe" : String) = bdep.importPath
        · rw [show alookup (ainsert (logEv st (.locate imp dir)).Packages
            bdep.importPath
            { dep with ReverseDependencies := sinsert me dep.ReverseDependencies })
            "unsafe" = alookup (ainsert st.Packages bdep.importPath
            { dep with ReverseDependencies := sinsert me dep.ReverseDependencies })
            "unsafe" from rfl, hk, alookup_ainsert_self] at hu
          cases hu
          show dep.dirty = false
          exact hA dep (hk ▸ hdep')
        · rw [show alookup (ainsert (logEv st (.locate imp dir)).Packages
            bdep.importPath
            { dep with ReverseDependencies := sinsert me dep.ReverseDependencies })
            "unsafe" = alookup (ainsert st.Packages bdep.importPath
            { dep with ReverseDependencies := sinsert me dep.ReverseDependencies })
            "unsafe" from rfl, alookup_ainsert_ne _ _ _ _ hk] at hu
          exact hA u hu
      · intro q pkq hpkq
        by_cases hq : q = bdep.importPath
        · rw [hq] at hpkq
          rw [show alookup (ainsert (logEv st (.locate imp dir)).Packages
            bdep.importPath
            { dep with ReverseDependencies := sinsert me dep.ReverseDependencies })
            bdep.importPath = alookup (ainsert st.Packages bdep.importPath
            { dep with ReverseDependencies := sinsert me dep.ReverseDependencies })
            bdep.importPath from rfl, alookup_ainsert_self] at hpkq
          cases hpkq
          exact not_mem_sinsert _ _ _ (hB bdep.importPath dep hdep')
            (fun hk => hme hk.symm)
        · rw [show alookup (ainsert (logEv st (.locate imp dir)).Packages
            bdep.importPath
            { dep with ReverseDependencies := sinsert me dep.ReverseDependencies }) q =
            alookup (ainsert st.Packages bdep.importPath
            { dep with ReverseDependencies := sinsert me dep.ReverseDependencies }) q
            from rfl, alookup_ainsert_ne _ _ _ _ hq] at hpkq
          exact hB q pkq hpkq
    constructor
    · intro pkg' st' h
      rw [walkImports] at h
      revert h
      cases hloc : w.locate imp dir with
      | none => intro h; exact absurd h (by simp)
      | some bdep =>
        cases hdep : alookup (logEv st (.locate imp dir)).Packages bdep.importPath with
        | none => intro h; exact absurd h (by simp [hdep])
        | some dep =>
          intro h
          simp only [hdep] at h
          exact (ih _ _ me dir (hstep bdep dep hdep) hme).1 pkg' st' h
    · intro e st' h
      rw [walkImports] at h
      revert h
      cases hloc : w.locate imp dir with
      | none =>
        intro h
        replace h : Outcome.err CErr.locateErr (logEv st (.locate imp dir)) =
          Outcome.err e st' := h
        cases h
        exact Inv_transport rfl rfl hi
      | some bdep =>
        cases hdep : alookup (logEv st (.locate imp dir)).Packages bdep.importPath with
        | none =>
          intro h
          simp only [hdep] at h
          replace h : Outcome.err CErr.nilDeref (logEv st (.locate imp dir)) =
            Outcome.err e st' := h
          cases h
          exact Inv_transport rfl rfl hi
        | some dep =>
          intro h
          simp only [hdep] at h
          exact (ih _ _ me dir (hstep bdep dep hdep) hme).2 e st' h
theorem loader_inv (w : World) (hw : Sane w) : ∀ fuel : Nat,
    (∀ st path srcDir, Inv st →
      (∀ v st', ImportFrom w fuel st path srcDir = .ok v st' → Inv st') ∧
      (∀ e st', ImportFrom w fuel st path srcDir = .err e st' → Inv st')) ∧
    (∀ st path srcDir canon, Inv st →
      (∀ v st', importSlow w fuel st path srcDir canon = .ok v st' → Inv st') ∧
      (∀ e st', importSlow w fuel st path srcDir canon = .err e st' → Inv st')) ∧
    (∀ st imps dir, Inv st →
      (∀ u st', resolveImports w fuel st imps dir = .ok u st' → Inv st') ∧
      (∀ e st', resolveImports w fuel st imps dir = .err e st' → Inv st')) ∧
    (∀ st path srcdir, Inv st →
      (∀ pkg st', compile w fuel st path srcdir = .ok pkg st' → Inv st' ∧
        pkg.dirty = false ∧ "unsafe" ∉ pkg.ReverseDependencies ∧
        pkg.typesPkg.isSome) ∧
      (∀ e st', compile w fuel st path srcdir = .err e st' → Inv st')) := by
  intro fuel
  induction fuel with
  | zero =>
    refine ⟨?_, ?_, ?_, ?_⟩
    · intro st path srcDir hi
      exact ⟨fun v st' h => by simp [ImportFrom] at h,
        fun e st' h => by simp [ImportFrom] at h⟩
    · intro st path srcDir canon hi
      exact ⟨fun v st' h => by simp [importSlow] at h,
        fun e st' h => by simp [importSlow] at h⟩
    · intro st imps dir hi
      match imps with
      | [] =>
        refine ⟨fun u st' h => ?_, fun e st' h => by simp [resolveImports] at h⟩
        cases h
        exact hi
      | _ :: _ =>
        exact ⟨fun u st' h => by simp [resolveImports] at h,
          fun e st' h => by simp [resolveImports] at h⟩
    · intro st path srcdir hi
      exact ⟨fun pkg st' h => by simp [compile] at h,
        fun e st' h => by simp [compile] at h⟩
  | succ fuel ih =>
    obtain ⟨ihI, ihS, ihR, ihC⟩ := ih
    refine ⟨?_, ?_, ?_, ?_⟩
    · intro st path srcDir hi
      have hi1 : Inv (logEv st (.locate path srcDir)) := Inv_transport rfl rfl hi
      constructor
      · intro v st' h
        rw [ImportFrom] at h
        revert h
        cases hloc : w.locate path srcDir with
        | none => intro h; exact absurd h (by simp)
        | some bpkg =>
          cases hcache : alookup (logEv st (.locate path srcDir)).Packages
              bpkg.importPath with
          | some pkg =>
            intro h
            simp only [hcache] at h
            by_cases hd : pkg.dirty
            · rw [if_pos hd] at h
              exact (ihS _ path srcDir _ hi1).1 v st' h
            · rw [if_neg hd] at h
              cases h
              exact hi1
          | none =>
            intro h
            simp only [hcache] at h
            exact (ihS _ path srcDir _ hi1).1 v st' h
      · intro e st' h
        rw [ImportFrom] at h
        revert h
        cases hloc : w.locate path srcDir with
        | none =>
          intro h
          replace h : Outcome.err CErr.locateErr (logEv st (.locate path srcDir)) =
            Outcome.err e st' := h
          cases h
          exact hi1
        | some bpkg =>
          cases hcache : alookup (logEv st (.locate path srcDir)).Packages
              bpkg.importPath with
          | some pkg =>
            intro h
            simp only [hcache] at h
            by_cases hd : pkg.dirty
            · rw [if_pos hd] at h
              exact (ihS _ path srcDir _ hi1).2 e st' h
            · rw [if_neg hd] at h
              cases h
          | none =>
            intro h
            simp only [hcache] at h
            exact (ihS _ path srcDir _ hi1).2 e st' h
    · intro st path srcDir canon hi
      constructor
      · intro v st' h
        rw [importSlow] at h
        revert h
        cases hc : compile w fuel st path srcDir with
        | ok pkg st2 =>
          intro h
          cases h
          obtain ⟨hi2, hdirty, hrdeps, htypes⟩ := (ihC st path srcDir hi).1 pkg st2 hc
          obtain ⟨hnum, hsome⟩ := Option.isSome_iff_exists.mp htypes
          obtain ⟨hA2, hB2, hC2⟩ := hi2
          refine ⟨?_, ?_, ?_⟩
          · intro u hu
            by_cases hk : ("unsafe" : String) = canon
            · rw [hk, alookup_ainsert_self] at hu
              cases hu
              exact hdirty
            · rw [alookup_ainsert_ne _ _ _ _ hk] at hu
              exact hA2 u hu
          · intro p pk hpk
            by_cases hp : p = canon
            · rw [hp, alookup_ainsert_self] at hpk
              cases hpk
              exact hrdeps
            · rw [alookup_ainsert_ne _ _ _ _ hp] at hpk
              exact hB2 p pk hpk
          · show alookup (ainsert st2.TypePackages pkg.typesPkg canon) none = none
            rw [hsome]
            rw [alookup_ainsert_ne _ _ _ _ (by simp)]
            exact hC2
        | err e st2 => intro h; exact absurd h (by simp)
        | diverge => intro h; exact absurd h (by simp)
      · intro e st' h
        rw [importSlow] at h
        revert h
        cases hc : compile w fuel st path srcDir with
        | ok pkg st2 => intro h; exact absurd h (by simp)
        | err e2 st2 =>
          intro h
          replace h : Outcome.err e2 st2 = Outcome.err e st' := h
          cases h
          exact (ihC st path srcDir hi).2 e st' hc
        | diverge => intro h; exact absurd h (by simp)
    · intro st imps dir hi
      match imps with
      | [] =>
        refine ⟨fun u st' h => ?_, fun e st' h => by simp [resolveImports] at h⟩
        cases h
        exact hi
      | imp :: rest =>
        constructor
        · intro u st' h
          rw [resolveImports] at h
          revert h
          cases hifr : ImportFrom w fuel st imp dir with
          | ok v st1 =>
            intro h
            exact (ihR st1 rest dir ((ihI st imp dir hi).1 v st1 hifr)).1 u st' h
          | err e st1 => intro h; exact absurd h (by simp)
          | diverge => intro h; exact absurd h (by simp)
        · intro e st' h
          rw [resolveImports] at h
          revert h
          cases hifr : ImportFrom w fuel st imp dir with
          | ok v st1 =>
            intro h
            exact (ihR st1 rest dir ((ihI st imp dir hi).1 v st1 hifr)).2 e st' h
          | err e2 st1 =>
            intro h
            replace h : Outcome.err e2 st1 = Outcome.err e st' := h
            cases h
            exact (ihI st imp dir hi).2 e st' hifr
          | diverge => intro h; exact absurd h (by simp)
    · intro st path srcdir hi
      have hiTP : Inv { st with TypePackages := aerase st.TypePackages none } :=
        ⟨hi.1, hi.2.1, alookup_aerase_self _ _⟩
      by_cases hpath : path = "unsafe"
      · subst hpath
        constructor
        · intro pkg st' h
          rw [compile] at h
          rw [shellFor_typesPkg, if_pos rfl] at h
          cases h
          refine ⟨hiTP, rfl, ?_, rfl⟩
          exact shellFor_rdeps_inv st "unsafe" hi.2.1
        · intro e st' h
          rw [compile] at h
          rw [shellFor_typesPkg, if_pos rfl] at h
          cases h
      · have hbody : ∀ o, (compile w (fuel + 1) st path srcdir = o) →
            (∀ pkg st', o = .ok pkg st' → Inv st' ∧ pkg.dirty = false ∧
              "unsafe" ∉ pkg.ReverseDependencies ∧ pkg.typesPkg.isSome) ∧
            (∀ e st', o = .err e st' → Inv st') := by
          intro o ho
          rw [compile] at ho
          rw [if_neg hpath, shellFor_typesPkg] at ho
          dsimp only at ho
          revert ho
          cases hmd : markDirtyFold fuel
              { st with TypePackages := aerase st.TypePackages none }
              (shellFor st path).ReverseDependencies with
          | err e st1 => intro ho; exact absurd hmd ((markDirty_no_err fuel).2 _ _ _ _)
          | diverge =>
            intro ho
            subst ho
            exact ⟨fun pkg st' h => by simp at h, fun e st' h => by simp at h⟩
          | ok u st1 =>
            have hi1 : Inv st1 := (markDirty_inv fuel).2 _ _ _ _ hiTP
              (shellFor_rdeps_inv st path hi.2.1) hmd
            dsimp only
            cases hbld : w.locate path srcdir with
            | none =>
              intro ho
              subst ho
              refine ⟨fun pkg st' h => by simp at h, fun e st' h => ?_⟩
              replace h : Outcome.err CErr.locateErr (logEv st1 (.locate path srcdir)) =
                Outcome.err e st' := h
              cases h
              exact Inv_transport rfl rfl hi1
            | some bld =>
              dsimp only
              have hme : bld.importPath ≠ "unsafe" :=
                fun hk => hpath (hw path srcdir bld hbld hk)
              by_cases hcgo : bld.cgoFiles = []
              · rw [if_pos hcgo]
                cases hp : parseFold w (logEv st1 (.locate path srcdir)) bld.dir []
                    bld.goFiles with
                | err e st2 =>
                  intro ho
                  subst ho
                  obtain ⟨e1, e2, -⟩ :=
                    (parseFold_state w bld.goFiles _ bld.dir []).2 e st2 hp
                  refine ⟨fun pkg st' h => by simp at h, fun e' st' h => ?_⟩
                  replace h : Outcome.err e st2 = Outcome.err e' st' := h
                  cases h
                  exact Inv_transport e1 e2 hi1
                | diverge =>
                  intro ho
                  subst ho
                  exact ⟨fun pkg st' h => by simp at h, fun e st' h => by simp at h⟩
                | ok names st2 =>
                  obtain ⟨-, e1, e2, -⟩ :=
                    (parseFold_state w bld.goFiles _ bld.dir []).1 names st2 hp
                  have hi2 : Inv st2 := Inv_transport e1 e2 hi1
                  dsimp only
                  cases hr : resolveImports w fuel (logEv st2 (.check path))
                      bld.imports bld.dir with
                  | err e2' st3 =>
                    intro ho
                    subst ho
                    have hi3 : Inv st3 :=
                      (ihR (logEv st2 (.check path)) bld.imports bld.dir
                        (Inv_transport rfl rfl hi2)).2 e2' st3 hr
                    refine ⟨fun pkg st' h => by simp at h, fun e' st' h => ?_⟩
                    replace h : Outcome.err CErr.typeErr
                      { st3 with Errors := st3.Errors ++ [path] } =
                      Outcome.err e' st' := h
                    cases h
                    exact Inv_transport rfl rfl hi3
                  | diverge =>
                    intro ho
                    subst ho
                    exact ⟨fun pkg st' h => by simp at h, fun e st' h => by simp at h⟩
                  | ok u2 st3 =>
                    have hi3 : Inv st3 :=
                      (ihR (logEv st2 (.check path)) bld.imports bld.dir
                        (Inv_transport rfl rfl hi2)).1 u2 st3 hr
                    dsimp only
                    by_cases hchk : w.checkOk bld = true
                    · rw [if_pos hchk]
                      have hiw : Inv { st3 with
                          nextHandle := st3.nextHandle + 1,
                          SSA := st3.SSA ++ [st3.nextSSA],
                          nextSSA := st3.nextSSA + 1,
                          trace := st3.trace ++ [Ev.buildIR path] } :=
                        Inv_transport rfl rfl hi3
                      cases hwk : walkImports w
                          { st3 with
                            nextHandle := st3.nextHandle + 1,
                            SSA := st3.SSA ++ [st3.nextSSA],
                            nextSSA := st3.nextSSA + 1,
                            trace := st3.trace ++ [Ev.buildIR path] }
                          { shellFor st path with
                            dirty := true, Files := names,
                            typesPkg := some st3.nextHandle,
                            SSA := some st3.nextSSA }
                          bld.importPath bld.dir bld.imports with
                      | err e4 st4 =>
                        intro ho
                        subst ho
                        have hi4 : Inv st4 := (walkImports_inv w bld.imports _ _ _ _
                          hiw hme).2 e4 st4 hwk
                        refine ⟨fun pkg st' h => by simp at h, fun e' st' h => ?_⟩
                        replace h : Outcome.err e4 st4 = Outcome.err e' st' := h
                        cases h
                        exact hi4
                      | diverge =>
                        intro ho
                        subst ho
                        exact ⟨fun pkg st' h => by simp at h,
                          fun e st' h => by simp at h⟩
                      | ok pkgw st4 =>
                        intro ho
                        subst ho
                        have hi4 : Inv st4 := (walkImports_inv w bld.imports _ _ _ _
                          hiw hme).1 pkgw st4 hwk
                        obtain ⟨f1, -, -, f4, -⟩ :=
                          walkImports_fields w bld.imports _ _ _ _ _ _ hwk
                        refine ⟨fun pkg st' h => ?_, fun e st' h => by simp at h⟩
                        replace h : Outcome.ok { pkgw with dirty := false } st4 =
                          Outcome.ok pkg st' := h
                        cases h
                        refine ⟨hi4, rfl, ?_, ?_⟩
                        · show "unsafe" ∉ pkgw.ReverseDependencies
                          rw [f4]
                          exact shellFor_rdeps_inv st path hi.2.1
                        · show pkgw.typesPkg.isSome = true
                          rw [f1]
                          rfl
                    · rw [if_neg hchk]
                      intro ho
                      subst ho
                      refine ⟨fun pkg st' h => by simp at h, fun e' st' h => ?_⟩
                      replace h : Outcome.err CErr.typeErr
                        { st3 with Errors := st3.Errors ++ [path] } =
                        Outcome.err e' st' := h
                      cases h
                      exact Inv_transport rfl rfl hi3
              · rw [if_neg hcgo]
                intro ho
                subst ho
                refine ⟨fun pkg st' h => by simp at h, fun e' st' h => ?_⟩
                replace h : Outcome.err CErr.cgoErr (logEv st1 (.locate path srcdir)) =
                  Outcome.err e' st' := h
                cases h
                exact Inv_transport rfl rfl hi1
        exact ⟨fun pkg st' h => (hbody _ rfl).1 pkg st' h,
          fun e st' h => (hbody _ rfl).2 e st' h⟩
theorem Compile_inv (w : World) (hw : Sane w) (fuel : Nat) (st : Program)
    (path : String) (hi : Inv st) :
    (∀ pkg st', Compile w fuel st path = .ok pkg st' → Inv st') ∧
    (∀ e st', Compile w fuel st path = .err e st' → Inv st') := by
  have hi0 : Inv { st with Errors := [] } := Inv_transport rfl rfl hi
  constructor
  · intro pkg st' h
    rw [Compile] at h
    revert h
    cases hc : compile w fuel { st with Errors := [] } path "." with
    | diverge => intro h; exact absurd h (by simp)
    | err e2 st2 =>
      intro h
      dsimp only at h
      by_cases hE : st2.Errors = []
      · rw [if_pos hE] at h
        exact absurd h (by simp)
      · rw [if_neg hE] at h
        exact absurd h (by simp)
    | ok pkg2 st2 =>
      intro h
      dsimp only at h
      obtain ⟨hi2, hdirty, hrdeps, htypes⟩ :=
        ((loader_inv w hw fuel).2.2.2 _ path "." hi0).1 pkg2 st2 hc
      obtain ⟨hnum, hsome⟩ := Option.isSome_iff_exists.mp htypes
      by_cases hE : st2.Errors = []
      · rw [if_pos hE] at h
        cases h
        obtain ⟨hA2, hB2, hC2⟩ := hi2
        refine ⟨?_, ?_, ?_⟩
        · intro u hu
          by_cases hk : ("unsafe" : String) = path
          · rw [hk] at hu
            rw [show alookup (ainsert st2.Packages path
                { pkg2 with Explicit := true }) path =
              some { pkg2 with Explicit := true } from alookup_ainsert_self _ _ _] at hu
            cases hu
            exact hdirty
          · rw [alookup_ainsert_ne _ _ _ _ hk] at hu
            exact hA2 u hu
        · intro p pk hpk
          by_cases hp : p = path
          · rw [hp] at hpk
            rw [show alookup (ainsert st2.Packages path
                { pkg2 with Explicit := true }) path =
              some { pkg2 with Explicit := true } from alookup_ainsert_self _ _ _] at hpk
            cases hpk
            exact hrdeps
          · rw [alookup_ainsert_ne _ _ _ _ hp] at hpk
            exact hB2 p pk hpk
        · show alookup (ainsert st2.TypePackages
            ({ pkg2 with Explicit := true } : Package).typesPkg path) none = none
          show alookup (ainsert st2.TypePackages pkg2.typesPkg path) none = none
          rw [hsome, alookup_ainsert_ne _ _ _ _ (by simp)]
          exact hC2
      · rw [if_neg hE] at h
        exact absurd h (by simp)
  · intro e st' h
    rw [Compile] at h
    revert h
    cases hc : compile w fuel { st with Errors := [] } path "." with
    | diverge => intro h; exact absurd h (by simp)
    | err e2 st2 =>
      intro h
      dsimp only at h
      have hi2 : Inv st2 :=
        ((loader_inv w hw fuel).2.2.2 _ path "." hi0).2 e2 st2 hc
      by_cases hE : st2.Errors = []
      · rw [if_pos hE] at h
        cases h
        exact hi2
      · rw [if_neg hE] at h
        cases h
        exact hi2
    | ok pkg2 st2 =>
      intro h
      dsimp only at h
      have hi2 : Inv st2 :=
        (((loader_inv w hw fuel).2.2.2 _ path "." hi0).1 pkg2 st2 hc).1
      by_cases hE : st2.Errors = []
      · rw [if_pos hE] at h
        exact absurd h (by simp)
      · rw [if_neg hE] at h
        cases h
        exact hi2

theorem recompileLoop_inv (w : World) (hw : Sane w) (fuel : Nat) :
    ∀ ps st, Inv st →
      (∀ u st', recompileLoop w fuel ps st = .ok u st' → Inv st') ∧
      (∀ e st', recompileLoop w fuel ps st = .err e st' → Inv st') := by
  intro ps
  induction ps with
  | nil =>
    intro st hi
    constructor
    · intro u st' h
      cases h
      exact hi
    · intro e st' h
      cases h
  | cons p rest ih =>
    intro st hi
    constructor
    · intro u st' h
      rw [recompileLoop] at h
      revert h
      cases hl : alookup st.Packages p with
      | none => intro h; exact (ih st hi).1 u st' h
      | some pkg =>
        intro h
        dsimp only at h
        by_cases hd : pkg.dirty = true
        · rw [if_pos hd] at h
          revert h
          cases hc : compile w fuel st p "." with
          | ok pkg2 st2 =>
            intro h
            exact (ih st2 (((loader_inv w hw fuel).2.2.2 _ p "." hi).1
              pkg2 st2 hc).1).1 u st' h
          | err e2 st2 => intro h; exact absurd h (by simp)
          | diverge => intro h; exact absurd h (by simp)
        · rw [if_neg hd] at h
          exact (ih st hi).1 u st' h
    · intro e st' h
      rw [recompileLoop] at h
      revert h
      cases hl : alookup st.Packages p with
      | none => intro h; exact (ih st hi).2 e st' h
      | some pkg =>
        intro h
        dsimp only at h
        by_cases hd : pkg.dirty = true
        · rw [if_pos hd] at h
          revert h
          cases hc : compile w fuel st p "." with
          | ok pkg2 st2 =>
            intro h
            exact (ih st2 (((loader_inv w hw fuel).2.2.2 _ p "." hi).1
              pkg2 st2 hc).1).2 e st' h
          | err e2 st2 =>
            intro h
            replace h : Outcome.err e2 st2 = Outcome.err e st' := h
            cases h
            exact ((loader_inv w hw fuel).2.2.2 _ p "." hi).2 e st' hc
          | diverge => intro h; exact absurd h (by simp)
        · rw [if_neg hd] at h
          exact (ih st hi).2 e st' h

theorem reaches_inv (w : World) (hw : Sane w) {st : Program}
    (hr : Reaches w st) : Inv st := by
  induction hr with
  | init =>
    refine ⟨fun u hu => ?_, fun p pk hpk => ?_, rfl⟩
    · simp [initProgram, alookup] at hu
    · simp [initProgram, alookup] at hpk
  | top_ok hr' hc ih => exact (Compile_inv w hw _ _ _ ih).1 _ _ hc
  | top_err hr' hc ih => exact (Compile_inv w hw _ _ _ ih).2 _ _ hc
  | rec_ok hr' hc ih =>
    rw [RecompileDirtyPackages] at hc
    exact (recompileLoop_inv w hw _ _ _ ih).1 _ _ hc
  | rec_err hr' hc ih =>
    rw [RecompileDirtyPackages] at hc
    exact (recompileLoop_inv w hw _ _ _ ih).2 _ _ hc
  | imp_ok hr' hc ih => exact ((loader_inv w hw _).1 _ _ _ ih).1 _ _ hc
  | imp_err hr' hc ih => exact ((loader_inv w hw _).1 _ _ _ ih).2 _ _ hc

/-- C8: in any state reachable through the public API of a sanely located
world, compiling the builtin sentinel path assigns the builtin semantic
handle, returns with `dirty = false` and no files, and leaves the state
completely unchanged — no locator, source, or parser event is recorded —
and the cached sentinel entry, whenever present, has `dirty = false`: the
sentinel is never parsed and never becomes dirty. -/
theorem compile_builtin_sentinel (w : World) (st : Program) (hw : Sane w)
    (hr : Reaches w st) :
    (∀ f d pkg st', compile w (f + 1) st "unsafe" d = .ok pkg st' →
      pkg.typesPkg = some builtinHandle ∧ pkg.dirty = false ∧ pkg.Files = [] ∧
      st' = st) ∧
    (∀ u, alookup st.Packages "unsafe" = some u → u.dirty = false) := by
  have hinv := reaches_inv w hw hr
  constructor
  · intro f d pkg st' h
    rw [compile] at h
    rw [shellFor_typesPkg, if_pos rfl] at h
    cases h
    refine ⟨rfl, rfl, shellFor_Files st "unsafe", ?_⟩
    show ({ st with TypePackages := aerase st.TypePackages none } : Program) = st
    rw [aerase_of_alookup_none _ _ hinv.2.2]
  · exact hinv.1

/-- Witness for C8: from the fresh state in the empty world, compiling the
sentinel returns the builtin handle, clean and file-less, with the state
untouched. -/
theorem compile_builtin_sentinel_witness :
    (({ newPackage with typesPkg := some builtinHandle } : Package).typesPkg =
      some builtinHandle ∧
    ({ newPackage with typesPkg := some builtinHandle } : Package).dirty = false ∧
    ({ newPackage with typesPkg := some builtinHandle } : Package).Files = [] ∧
    initProgram = initProgram) ∧
    (∀ u, alookup initProgram.Packages "unsafe" = some u → u.dirty = false) :=
  ⟨(compile_builtin_sentinel wNull initProgram
      (fun p d desc hl _ => by simp [wNull] at hl) Reaches.init).1 0 "."
      { newPackage with typesPkg := some builtinHandle } initProgram (by decide),
   (compile_builtin_sentinel wNull initProgram
      (fun p d desc hl _ => by simp [wNull] at hl) Reaches.init).2⟩

end Loader
